import Mathlib

/-!
Verification of the DPLL SAT solver in `problems/dpll/implementation.py`.

Shallow embedding conventions:
* `Literal` mirrors the frozen dataclass `Literal` (fields `var`, `negated`);
  `var` is a `Nat`, matching the `var >= 0` invariant enforced by
  `__post_init__`.
* A Python `Clause` is a `frozenset[Literal]`; it is embedded as a
  duplicate-free `List Literal` kept sorted by the literal order
  (`(var, negated)` lexicographically, the dataclass `order=True` order).
  Python's frozenset iteration order is unspecified but deterministic
  within a run; the sorted order is the concrete deterministic order used
  by this embedding.  All set-level operations (`in`, comprehension
  filtering, `min`) are order-independent, so this choice is a faithful
  refinement.
* A `CNF` is a `tuple[Clause, ...]`, embedded as `List Clause`.
* A Python `Model` is an insertion-ordered `dict[int, bool]`; it is
  embedded as an association list `List (Nat × Bool)` where lookup finds
  the first matching key and fresh keys are appended at the end, exactly
  the dict discipline used by the source (`_assign` only ever inserts a
  key that is absent).
* Python functions that mutate the model in place (`_assign`,
  `_unit_propagate`, `_eliminate_pure_literals`) are embedded in
  state-passing style, returning the updated model; `False`/`None`
  conflict results become `none`.
* The recursion of `dpll` is embedded with an explicit fuel counter
  (`dpllF`), consumed once per recursive self-call; `dpllF` returns
  `none` when the fuel runs out and `some r` when the Python function
  would return `r`.  `dpll` runs `dpllF` with fuel equal to the number
  of distinct variables of the formula, which is proved sufficient
  (claim C8), so `dpll` agrees with the Python function everywhere.
-/

/-- Mirrors the frozen dataclass `Literal` (implementation.py lines 24-47). -/
structure Literal where
  var : Nat
  negated : Bool
deriving DecidableEq, Repr

/-- `Literal.negate` (line 43-44): flip the `negated` flag only. -/
def Literal.negate (l : Literal) : Literal := ⟨l.var, !l.negated⟩

/-- The dataclass `order=True` ordering: lexicographic on `(var, negated)`
with `False < True`. -/
def litLT (a b : Literal) : Bool :=
  decide (a.var < b.var) || (decide (a.var = b.var) && !a.negated && b.negated)

abbrev Clause := List Literal
abbrev CNF := List Clause
abbrev Model := List (Nat × Bool)

/-- First-match lookup in the association-list model, the embedding of
`model.get(var)` / `var in model` on a Python dict. -/
def lookupVar : Model → Nat → Option Bool
  | [], _ => none
  | (v, b) :: rest, x => if v = x then some b else lookupVar rest x

/-- Embeds `_apply_literal` (lines 142-163): drop clauses containing
`lt`, remove `lt.negate()` from the rest, conflict (`none`) if a clause
becomes empty. -/
def applyLiteral : CNF → Literal → Option CNF
  | [], _ => some []
  | c :: rest, lt =>
    if lt ∈ c then applyLiteral rest lt
    else if lt.negate ∈ c then
      let reduced := c.filter (fun l => l ≠ lt.negate)
      if reduced = [] then none
      else match applyLiteral rest lt with
        | none => none
        | some rest' => some (reduced :: rest')
    else match applyLiteral rest lt with
      | none => none
      | some rest' => some (c :: rest')

/-- Embeds `_assign` (lines 166-176): record `lit.var ↦ not lit.negated`;
`none` when it contradicts an existing assignment. -/
def assign (m : Model) (lit : Literal) : Option Model :=
  let value := !lit.negated
  match lookupVar m lit.var with
  | none => some (m ++ [(lit.var, value)])
  | some existing => if existing = value then some m else none

/-- Embeds `_find_unit_literal` (lines 179-183): first clause of size one. -/
def findUnitLiteral : CNF → Option Literal
  | [] => none
  | [l] :: _ => some l
  | _ :: rest => findUnitLiteral rest

/-- `applyLiteral` never lengthens the formula. -/
theorem applyLiteral_length_le {f : CNF} {lt : Literal} {f' : CNF}
    (h : applyLiteral f lt = some f') : f'.length ≤ f.length := by
  induction f generalizing f' with
  | nil => simp [applyLiteral] at h; simp [← h]
  | cons c rest ih =>
    simp only [applyLiteral] at h
    split at h
    · exact Nat.le_succ_of_le (ih h)
    · split at h
      · split at h
        · exact absurd h (by simp)
        · cases hr : applyLiteral rest lt with
          | none => rw [hr] at h; exact absurd h (by simp)
          | some rest' =>
            rw [hr] at h
            cases h
            simpa using ih hr
      · cases hr : applyLiteral rest lt with
        | none => rw [hr] at h; exact absurd h (by simp)
        | some rest' =>
          rw [hr] at h
          cases h
          simpa using ih hr

/-- When `lt` occurs in some clause, `applyLiteral` strictly shortens the
formula (that clause is dropped). -/
theorem applyLiteral_length_lt {f : CNF} {lt : Literal} {f' : CNF}
    (h : applyLiteral f lt = some f') (hocc : ∃ c ∈ f, lt ∈ c) :
    f'.length < f.length := by
  induction f generalizing f' with
  | nil => simp at hocc
  | cons c rest ih =>
    simp only [applyLiteral] at h
    obtain ⟨c0, hc0, hlt0⟩ := hocc
    split at h
    · exact Nat.lt_succ_of_le (applyLiteral_length_le h)
    · rename_i hnotin
      have hocc' : ∃ c ∈ rest, lt ∈ c := by
        rcases List.mem_cons.mp hc0 with rfl | hm
        · exact absurd hlt0 hnotin
        · exact ⟨c0, hm, hlt0⟩
      split at h
      · split at h
        · exact absurd h (by simp)
        · cases hr : applyLiteral rest lt with
          | none => rw [hr] at h; exact absurd h (by simp)
          | some rest' =>
            rw [hr] at h
            cases h
            exact Nat.succ_lt_succ (ih hr hocc')
      · cases hr : applyLiteral rest lt with
        | none => rw [hr] at h; exact absurd h (by simp)
        | some rest' =>
          rw [hr] at h
          cases h
          exact Nat.succ_lt_succ (ih hr hocc')

/-- A unit literal found by `findUnitLiteral` comes from a one-literal
clause of the formula. -/
theorem findUnitLiteral_mem {f : CNF} {u : Literal}
    (h : findUnitLiteral f = some u) : [u] ∈ f := by
  induction f with
  | nil => simp [findUnitLiteral] at h
  | cons c rest ih =>
    match c, h with
    | [l], h => simp [findUnitLiteral] at h; simp [h]
    | [], h => exact List.mem_cons_of_mem _ (ih h)
    | a :: b :: t, h => exact List.mem_cons_of_mem _ (ih h)

/-- Embeds `_unit_propagate` (lines 186-195): repeatedly assign and apply
the first unit literal; `none` on a contradictory assignment or an
emptied clause. -/
def unitPropagate (f : CNF) (m : Model) : Option (CNF × Model) :=
  match hu : findUnitLiteral f with
  | none => some (f, m)
  | some unit =>
    match assign m unit with
    | none => none
    | some m' =>
      match ha : applyLiteral f unit with
      | none => none
      | some f' => unitPropagate f' m'
termination_by f.length
decreasing_by
  exact applyLiteral_length_lt ha ⟨[unit], findUnitLiteral_mem hu, by simp⟩

/-- Helper for `firstDedup`: drop elements already seen. -/
def firstDedupAux : List Nat → List Nat → List Nat
  | [], _ => []
  | v :: rest, seen =>
    if v ∈ seen then firstDedupAux rest seen
    else v :: firstDedupAux rest (v :: seen)

/-- Deduplicate keeping the first occurrence of each element; embeds the
first-insertion iteration order of the Python dict `polarity` built in
`_pure_literals` (lines 198-204). -/
def firstDedup (l : List Nat) : List Nat := firstDedupAux l []

/-- `l` occurs in some clause of `f`. -/
def occursIn (f : CNF) (l : Literal) : Bool := f.any (fun c => decide (l ∈ c))

/-- Embeds `_pure_literals` (lines 198-211).  The Python code builds a
dict `polarity` mapping each unassigned variable to the set of `negated`
flags of its occurrences, then keeps the variables with exactly one
flag.  Equivalently (as embedded here): enumerate the unassigned
variables in first-occurrence order and keep those whose occurrences in
`f` all share one polarity, producing the literal with that polarity. -/
def pureLiterals (f : CNF) (m : Model) : List Literal :=
  let vars := firstDedup (((f.map
    (fun c => c.filter (fun l => (lookupVar m l.var).isNone))).flatten).map Literal.var)
  vars.filterMap (fun v =>
    let pos := occursIn f ⟨v, false⟩
    let neg := occursIn f ⟨v, true⟩
    if pos && neg then none
    else if pos then some ⟨v, false⟩
    else if neg then some ⟨v, true⟩
    else none)

/-- The inner `for lit in pures` loop of `_eliminate_pure_literals`
(lines 219-224): assign and apply each pure literal in order. -/
def applyPures : List Literal → CNF → Model → Option (CNF × Model)
  | [], f, m => some (f, m)
  | l :: rest, f, m =>
    match assign m l with
    | none => none
    | some m' =>
      match applyLiteral f l with
      | none => none
      | some f' => applyPures rest f' m'

theorem applyPures_length_le {lits : List Literal} {f : CNF} {m : Model}
    {f' : CNF} {m' : Model} (h : applyPures lits f m = some (f', m')) :
    f'.length ≤ f.length := by
  induction lits generalizing f m with
  | nil => simp [applyPures] at h; simp [h.1]
  | cons l rest ih =>
    simp only [applyPures] at h
    cases ha : assign m l with
    | none => rw [ha] at h; exact absurd h (by simp)
    | some m1 =>
      rw [ha] at h
      cases hb : applyLiteral f l with
      | none => rw [hb] at h; exact absurd h (by simp)
      | some f1 =>
        rw [hb] at h
        exact le_trans (ih h) (applyLiteral_length_le hb)

/-- Every literal returned by `pureLiterals` occurs in the formula. -/
theorem pureLiterals_occurs {f : CNF} {m : Model} {p : Literal}
    (hp : p ∈ pureLiterals f m) : ∃ c ∈ f, p ∈ c := by
  simp only [pureLiterals, List.mem_filterMap] at hp
  obtain ⟨v, _, hv⟩ := hp
  have hocc : ∀ b, occursIn f ⟨v, b⟩ = true → ∃ c ∈ f, (⟨v, b⟩ : Literal) ∈ c := by
    intro b hb
    simpa [occursIn, List.any_eq_true] using hb
  by_cases h1 : occursIn f ⟨v, false⟩ = true
  · by_cases h2 : occursIn f ⟨v, true⟩ = true
    · simp [h1, h2] at hv
    · simp [h1, h2] at hv
      exact hv ▸ hocc false h1
  · by_cases h2 : occursIn f ⟨v, true⟩ = true
    · simp [h1, h2] at hv
      exact hv ▸ hocc true h2
    · simp [h1, h2] at hv

theorem applyPures_length_lt {p : Literal} {ps : List Literal} {f : CNF}
    {m : Model} {f' : CNF} {m' : Model}
    (h : applyPures (p :: ps) f m = some (f', m')) (hocc : ∃ c ∈ f, p ∈ c) :
    f'.length < f.length := by
  simp only [applyPures] at h
  cases ha : assign m p with
  | none => rw [ha] at h; exact absurd h (by simp)
  | some m1 =>
    rw [ha] at h
    cases hb : applyLiteral f p with
    | none => rw [hb] at h; exact absurd h (by simp)
    | some f1 =>
      rw [hb] at h
      exact lt_of_le_of_lt (applyPures_length_le h) (applyLiteral_length_lt hb hocc)

/-- Embeds `_eliminate_pure_literals` (lines 214-224): repeat until no
pure literal remains; conflict propagates as `none`. -/
def eliminatePureLiterals (f : CNF) (m : Model) : Option (CNF × Model) :=
  match hp : pureLiterals f m with
  | [] => some (f, m)
  | p :: ps =>
    match ha : applyPures (p :: ps) f m with
    | none => none
    | some (f', m') => eliminatePureLiterals f' m'
termination_by f.length
decreasing_by
  exact applyPures_length_lt ha (pureLiterals_occurs (hp ▸ List.mem_cons_self p ps))

/-- `any(l.var not in model for l in clause)` (line 237). -/
def hasUnassigned (m : Model) (c : Clause) : Bool :=
  c.any (fun l => (lookupVar m l.var).isNone)

/-- Python's `min(clauses, key=len)`: the first clause of minimal length
(`min` keeps the earlier element on ties); `none` on the empty list,
where Python would raise `ValueError`. -/
def minByLen (l : List Clause) : Option Clause :=
  match l with
  | [] => none
  | c :: rest => some (rest.foldl (fun acc d => if d.length < acc.length then d else acc) c)

/-- Python's `min` over literals under the dataclass order; `none` on the
empty list, where Python would raise `ValueError`. -/
def minLit (l : List Literal) : Option Literal :=
  match l with
  | [] => none
  | x :: rest => some (rest.foldl (fun acc d => if litLT d acc then d else acc) x)

/-- Embeds `_choose_branch_literal` (lines 227-247). -/
def chooseBranchLiteral (f : CNF) (m : Model) : Option Literal :=
  match f.filter (hasUnassigned m) with
  | [] =>
    match minByLen f with
    | none => none
    | some c => minLit c
  | c0 :: cs =>
    match minByLen (c0 :: cs) with
    | none => none
    | some c => minLit (c.filter (fun l => (lookupVar m l.var).isNone))

/-- `_unit_propagate` either returns its arguments unchanged (no unit
clause) or strictly shortens the formula. -/
theorem unitPropagate_cases {f : CNF} {m : Model} :
    ∀ {f' m'}, unitPropagate f m = some (f', m') →
      (f' = f ∧ m' = m) ∨ f'.length < f.length := by
  induction f, m using unitPropagate.induct with
  | case1 f m hu =>
    intro f' m' h
    rw [unitPropagate, hu] at h
    simp at h
    exact Or.inl ⟨h.1.symm, h.2.symm⟩
  | case2 f m unit hu ha =>
    intro f' m' h
    rw [unitPropagate, hu] at h
    simp [ha] at h
  | case3 f m unit hu m1 ha hb =>
    intro f' m' h
    rw [unitPropagate, hu] at h
    simp only [ha] at h
    split at h
    · exact absurd h (by simp)
    · rename_i x heq
      rw [hb] at heq
      cases heq
  | case4 f m unit hu m1 ha f1 hb ih =>
    intro f' m' h
    rw [unitPropagate, hu] at h
    simp only [ha] at h
    split at h
    · exact absurd h (by simp)
    · rename_i x heq
      rw [hb] at heq
      injection heq with hx
      subst hx
      have hlt : f1.length < f.length :=
        applyLiteral_length_lt hb ⟨[unit], findUnitLiteral_mem hu, by simp⟩
      rcases ih h with ⟨h1, h2⟩ | hl
      · exact Or.inr (h1 ▸ hlt)
      · exact Or.inr (lt_trans hl hlt)

/-- `_eliminate_pure_literals` either returns its arguments unchanged (no
pure literal) or strictly shortens the formula. -/
theorem eliminatePureLiterals_cases {f : CNF} {m : Model} :
    ∀ {f' m'}, eliminatePureLiterals f m = some (f', m') →
      (f' = f ∧ m' = m) ∨ f'.length < f.length := by
  induction f, m using eliminatePureLiterals.induct with
  | case1 f m hp =>
    intro f' m' h
    rw [eliminatePureLiterals, hp] at h
    simp at h
    exact Or.inl ⟨h.1.symm, h.2.symm⟩
  | case2 f m p ps hp ha =>
    intro f' m' h
    rw [eliminatePureLiterals, hp] at h
    split at h
    · rename_i heq; cases heq
    · rename_i x y heq
      injection heq with hx hy
      subst hx; subst hy
      split at h
      · exact absurd h (by simp)
      · rename_i a b heq2
        rw [ha] at heq2
        cases heq2
  | case3 f m p ps hp f1 m1 ha ih =>
    intro f' m' h
    rw [eliminatePureLiterals, hp] at h
    split at h
    · rename_i heq; cases heq
    · rename_i x y heq
      injection heq with hx hy
      subst hx; subst hy
      split at h
      · rename_i heq2
        rw [ha] at heq2
        cases heq2
      · rename_i a b heq2
        rw [ha] at heq2
        injection heq2 with hab
        injection hab with h1 h2
        subst h1; subst h2
        have hlt : f1.length < f.length :=
          applyPures_length_lt ha (pureLiterals_occurs (hp ▸ List.mem_cons_self p ps))
        rcases ih h with ⟨h1, h2⟩ | hl
        · exact Or.inr (h1 ▸ hlt)
        · exact Or.inr (lt_trans hl hlt)

/-- The `while True` simplification loop in `dpll` (lines 283-296): unit
propagation then pure-literal elimination, repeated until the formula is
empty or a full round changes nothing (Python's `cnf == before` check);
conflicts propagate as `none`. -/
def simpLoop (f : CNF) (m : Model) : Option (CNF × Model) :=
  match hu : unitPropagate f m with
  | none => none
  | some (f1, m1) =>
    match he : eliminatePureLiterals f1 m1 with
    | none => none
    | some (f2, m2) =>
      if f2 = [] then some (f2, m2)
      else if f2 = f then some (f2, m2)
      else simpLoop f2 m2
termination_by f.length
decreasing_by
  rename_i hne0 hne
  rcases unitPropagate_cases hu with ⟨rfl, rfl⟩ | h1
  · rcases eliminatePureLiterals_cases he with ⟨rfl, rfl⟩ | h2
    · exact absurd rfl hne
    · exact h2
  · rcases eliminatePureLiterals_cases he with ⟨rfl, rfl⟩ | h2
    · exact h1
    · exact lt_trans h2 h1

/-- The upfront loop of `dpll` (lines 270-275): apply each entry of the
supplied partial model, in insertion order, as a forced-true literal. -/
def applyPartial : CNF → Model → Option CNF
  | f, [] => some f
  | f, (v, b) :: rest =>
    match applyLiteral f ⟨v, !b⟩ with
    | none => none
    | some f' => applyPartial f' rest

/-- The set of distinct variables occurring in a formula. -/
def varsOf (f : CNF) : Finset Nat := (f.flatten.map Literal.var).toFinset

/-- Embeds `dpll` (lines 250-313) with an explicit fuel counter consumed
once per recursive self-call.  Result `none` means the fuel ran out;
`some r` means the Python function returns `r` (`some none` = UNSAT,
`some (some model)` = a satisfying model).  The `chooseBranchLiteral =
none` case (Python would raise `ValueError` on `min` of an empty
sequence) is unreachable at this call site — the formula there is
nonempty with no empty clause — and is mapped to `some none`. -/
def dpllF : Nat → CNF → Model → Option (Option Model)
  | fuel, f, m =>
    match applyPartial f m with
    | none => some none
    | some f1 =>
      if f1 = [] then some (some m)
      else if f1.any (fun c => c.isEmpty) then some none
      else
        match simpLoop f1 m with
        | none => some none
        | some (f2, m2) =>
          if f2 = [] then some (some m2)
          else
            match chooseBranchLiteral f2 m2 with
            | none => some none
            | some lit =>
              match fuel with
              | 0 => none
              | fuel' + 1 =>
                let rest : Option (Option Model) :=
                  match assign m2 lit.negate with
                  | none => some none
                  | some mB =>
                    match applyLiteral f2 lit.negate with
                    | none => some none
                    | some fB => dpllF fuel' fB mB
                match assign m2 lit with
                | none => rest
                | some mA =>
                  match applyLiteral f2 lit with
                  | none => rest
                  | some fA =>
                    match dpllF fuel' fA mA with
                    | none => none
                    | some (some r) => some (some r)
                    | some none => rest
termination_by fuel => fuel
decreasing_by all_goals omega

/-- Embeds `dpll` (lines 250-313): run `dpllF` with fuel equal to the
number of distinct variables, which is sufficient (`dpllF_enough`). -/
def dpll (f : CNF) (m : Model) : Option Model :=
  (dpllF (varsOf f).card f m).getD none

/-- Embeds `is_satisfiable` (lines 316-318); the Python default
`model=None` starts from the empty model. -/
def is_satisfiable (f : CNF) : Bool := (dpll f []).isSome

/-- The per-literal evaluation of `evaluate_cnf` (lines 332-339):
`false` when the variable is unassigned. -/
def litEval (m : Model) (l : Literal) : Bool :=
  match lookupVar m l.var with
  | none => false
  | some val => if l.negated then !val else val

/-- Embeds `evaluate_cnf` (lines 321-342): every clause must contain a
literal assigned a value making it true; unassigned literals do not
satisfy a clause. -/
def evaluate_cnf (f : CNF) (m : Model) : Bool :=
  f.all (fun c => c.any (litEval m))

/-! Controlled unfolding equations for the loop functions, used both to
evaluate the solver on concrete inputs and in the inductive proofs. -/

theorem unitPropagate_done {f : CNF} {m : Model}
    (h : findUnitLiteral f = none) : unitPropagate f m = some (f, m) := by
  rw [unitPropagate, h]

theorem unitPropagate_conflict1 {f : CNF} {m : Model} {u : Literal}
    (hu : findUnitLiteral f = some u) (ha : assign m u = none) :
    unitPropagate f m = none := by
  rw [unitPropagate, hu]
  simp [ha]

theorem eliminatePureLiterals_done {f : CNF} {m : Model}
    (hp : pureLiterals f m = []) : eliminatePureLiterals f m = some (f, m) := by
  rw [eliminatePureLiterals, hp]

theorem unitPropagate_conflict2 {f : CNF} {m : Model} {u : Literal} {m1 : Model}
    (hu : findUnitLiteral f = some u) (ha : assign m u = some m1)
    (hb : applyLiteral f u = none) : unitPropagate f m = none := by
  rw [unitPropagate, hu]
  simp only [ha]
  rw [hb]

theorem unitPropagate_step {f : CNF} {m : Model} {u : Literal} {m1 : Model} {f1 : CNF}
    (hu : findUnitLiteral f = some u) (ha : assign m u = some m1)
    (hb : applyLiteral f u = some f1) :
    unitPropagate f m = unitPropagate f1 m1 := by
  rw [unitPropagate, hu]
  simp only [ha]
  rw [hb]

theorem eliminatePureLiterals_conflict {f : CNF} {m : Model} {p : Literal}
    {ps : List Literal} (hp : pureLiterals f m = p :: ps)
    (ha : applyPures (p :: ps) f m = none) : eliminatePureLiterals f m = none := by
  rw [eliminatePureLiterals, hp]
  simp only [ha]
  rw [ha]

theorem eliminatePureLiterals_step {f : CNF} {m : Model} {p : Literal}
    {ps : List Literal} {f1 : CNF} {m1 : Model}
    (hp : pureLiterals f m = p :: ps) (ha : applyPures (p :: ps) f m = some (f1, m1)) :
    eliminatePureLiterals f m = eliminatePureLiterals f1 m1 := by
  rw [eliminatePureLiterals, hp]
  simp only [ha]
  rw [ha]

theorem simpLoop_upConflict {f : CNF} {m : Model}
    (hu : unitPropagate f m = none) : simpLoop f m = none := by
  rw [simpLoop, hu]

theorem simpLoop_elimConflict {f : CNF} {m : Model} {f1 : CNF} {m1 : Model}
    (hu : unitPropagate f m = some (f1, m1))
    (he : eliminatePureLiterals f1 m1 = none) : simpLoop f m = none := by
  rw [simpLoop, hu]
  simp only [he]
  rw [he]

theorem simpLoop_finish {f : CNF} {m : Model} {f1 : CNF} {m1 : Model}
    {f2 : CNF} {m2 : Model}
    (hu : unitPropagate f m = some (f1, m1))
    (he : eliminatePureLiterals f1 m1 = some (f2, m2))
    (hstop : f2 = [] ∨ f2 = f) : simpLoop f m = some (f2, m2) := by
  rw [simpLoop, hu]
  simp only [he]
  rw [he]
  rcases hstop with h | h
  · simp [h]
  · simp [h]

theorem simpLoop_step {f : CNF} {m : Model} {f1 : CNF} {m1 : Model}
    {f2 : CNF} {m2 : Model}
    (hu : unitPropagate f m = some (f1, m1))
    (he : eliminatePureLiterals f1 m1 = some (f2, m2))
    (h0 : ¬ f2 = []) (h1 : ¬ f2 = f) : simpLoop f m = simpLoop f2 m2 := by
  rw [simpLoop, hu]
  simp only [he]
  rw [he]
  simp [h0, h1]

/-! Parsing (`parse_literal`, lines 59-88) and literal printing
(`Literal.__str__`, lines 46-47).  Python string tokens are embedded as
`List Char`; `str.isdigit` is modelled on ASCII digits and `str.strip`
on the ASCII whitespace characters Python strips. -/

/-- The whitespace characters removed by Python `str.strip()`. -/
def isPySpace (c : Char) : Bool :=
  decide (c = ' ') || decide (c = '\t') || decide (c = '\n') ||
  decide (c = '\r') || decide (c = '\x0b') || decide (c = '\x0c')

/-- Python `str.strip()`. -/
def pyStrip (s : List Char) : List Char :=
  ((s.dropWhile isPySpace).reverse.dropWhile isPySpace).reverse

/-- Python `str.isdigit()` (ASCII digits): nonempty and all digits. -/
def pyIsdigit (s : List Char) : Bool := !s.isEmpty && s.all Char.isDigit

/-- Python `int()` applied to a string of ASCII digits. -/
def digitsVal (s : List Char) : Nat := s.foldl (fun a c => 10 * a + (c.toNat - 48)) 0

/-- The source's `LiteralLike = Union[Literal, str, int]`; the extra
constructor `unsupported` stands for a value of any other Python type
(line 88 raises `TypeError` on those). -/
inductive LiteralLike where
  | lit (l : Literal)
  | str (s : List Char)
  | int (n : Int)
  | unsupported
deriving DecidableEq, Repr

/-- Embeds `parse_literal` (lines 59-88).  Python's `ValueError` (bad
token) and `TypeError` (unsupported type) both become `none`. -/
def parse_literal : LiteralLike → Option Literal
  | .lit l => some l
  | .int n => if n < 0 then some ⟨(-n).toNat, true⟩ else some ⟨n.toNat, false⟩
  | .str s =>
    match pyStrip s with
    | [] => none
    | c :: rest =>
      if c = '-' then
        if pyIsdigit rest then some ⟨digitsVal rest, true⟩ else none
      else if pyIsdigit (c :: rest) then some ⟨digitsVal (c :: rest), false⟩ else none
  | .unsupported => none

/-- Helper for `natDigits`: fuel-bounded base-10 digit extraction. -/
def natDigitsCore : Nat → Nat → List Char → List Char
  | 0, _, acc => acc
  | fuel + 1, n, acc =>
    if n = 0 then acc
    else natDigitsCore fuel (n / 10) (Char.ofNat (48 + n % 10) :: acc)

/-- Python `str(n)` for a natural number. -/
def natDigits (n : Nat) : List Char := if n = 0 then ['0'] else natDigitsCore (n + 1) n []

/-- Embeds `Literal.__str__` (lines 46-47): `f"-{var}"` when negated,
else `str(var)`. -/
def literalStr (l : Literal) : List Char :=
  (if l.negated then ['-'] else []) ++ natDigits l.var

/-- The token after the optional leading sign marker (`s[1:]` when
`s[0] == "-"`, otherwise the whole token). -/
def dropSignMarker (t : List Char) : List Char :=
  match t with
  | [] => []
  | c :: rest => if c = '-' then rest else c :: rest

/-- Modelled from the spec (§4.1): "Parsing fails with a format error
when the token is empty, contains non-digit characters after the
optional sign marker, or uses an unsupported type."  A (stripped) token
whose part after the optional sign is empty (the bare token `"-"`)
contains no digit, hence is not a "digit token"; it falls under the
failure side, captured here by `pyIsdigit _ = false` (which also covers
the empty and the non-digit cases). -/
def specParseFailure : LiteralLike → Prop
  | .str s => pyStrip s = [] ∨ pyIsdigit (dropSignMarker (pyStrip s)) = false
  | .lit _ => False
  | .int _ => False
  | .unsupported => True

/-- C5: `parse_literal "-0"` and `parse_literal "0"` are distinct
literals, and printing each parsed literal with `Literal.__str__`
returns exactly the original token. -/
theorem C5_parse_negative_zero_distinct_roundtrip :
    parse_literal (.str ['-', '0']) ≠ parse_literal (.str ['0']) ∧
    (parse_literal (.str ['-', '0'])).map literalStr = some ['-', '0'] ∧
    (parse_literal (.str ['0'])).map literalStr = some ['0'] := by decide

theorem isPySpace_eq_false_of_isDigit {c : Char} (h : c.isDigit = true) :
    isPySpace c = false := by
  by_contra hs
  rw [Bool.not_eq_false] at hs
  simp only [isPySpace, Bool.or_eq_true, decide_eq_true_eq] at hs
  rcases hs with ((((rfl | rfl) | rfl) | rfl) | rfl) | rfl <;> exact absurd h (by decide)

theorem dropWhile_eq_self_of_no_space {l : List Char}
    (h : ∀ c ∈ l, isPySpace c = false) : l.dropWhile isPySpace = l := by
  cases l with
  | nil => rfl
  | cons a t =>
    rw [List.dropWhile_cons]
    simp [h a (List.mem_cons_self a t)]

theorem pyStrip_eq_self_of_no_space {l : List Char}
    (h : ∀ c ∈ l, isPySpace c = false) : pyStrip l = l := by
  unfold pyStrip
  rw [dropWhile_eq_self_of_no_space h]
  rw [dropWhile_eq_self_of_no_space (fun c hc => h c (List.mem_reverse.mp hc))]
  exact List.reverse_reverse l

/-- C6: `parse_literal` fails exactly on the spec's failure conditions
(empty/whitespace-only token, token that is not an optional sign marker
followed by a nonempty digit string, or an unsupported input type), and
succeeds on every `Literal`, every `int`, and every well-formed digit
token optionally preceded by `"-"`. -/
theorem C6_parse_literal_error_conditions :
    (∀ x, parse_literal x = none ↔ specParseFailure x) ∧
    (∀ l, parse_literal (.lit l) = some l) ∧
    (∀ n : Int, (parse_literal (.int n)).isSome = true) ∧
    (∀ ds : List Char, pyIsdigit ds = true →
      (parse_literal (.str ds)).isSome = true ∧
      (parse_literal (.str ('-' :: ds))).isSome = true) := by
  refine ⟨?_, fun l => rfl, ?_, ?_⟩
  · intro x
    match x with
    | .lit l => simp [parse_literal, specParseFailure]
    | .unsupported => simp [parse_literal, specParseFailure]
    | .int n =>
      simp only [parse_literal, specParseFailure]
      split <;> simp
    | .str s =>
      simp only [parse_literal, specParseFailure]
      cases h : pyStrip s with
      | nil => simp
      | cons c rest =>
        by_cases hc : c = '-'
        · subst hc
          simp only [dropSignMarker, if_pos rfl]
          split <;> simp_all
        · simp only [dropSignMarker, if_neg hc]
          split <;> simp_all
  · intro n
    simp only [parse_literal]
    split <;> simp
  · intro ds h
    have h' := h
    simp only [pyIsdigit, Bool.and_eq_true, List.all_eq_true, Bool.not_eq_true'] at h'
    obtain ⟨h1, h2⟩ := h'
    have hstrip : pyStrip ds = ds :=
      pyStrip_eq_self_of_no_space
        (fun c hc => isPySpace_eq_false_of_isDigit (h2 c hc))
    constructor
    · cases ds with
      | nil => exact absurd h1 (by decide)
      | cons c rest =>
        have hcd : ¬ c = '-' := by
          intro he
          subst he
          exact absurd (h2 '-' (List.mem_cons_self _ _)) (by decide)
        simp only [parse_literal, hstrip, if_neg hcd, h, if_pos rfl]
        rfl
    · have hstrip2 : pyStrip ('-' :: ds) = '-' :: ds := by
        refine pyStrip_eq_self_of_no_space ?_
        intro c hc
        rcases List.mem_cons.mp hc with rfl | hm
        · decide
        · exact isPySpace_eq_false_of_isDigit (h2 c hm)
      simp only [parse_literal, hstrip2, if_pos rfl, h]
      rfl

/-- Witness for C6 at the concrete digit token `"3"`. -/
theorem C6_witness :
    pyIsdigit ['3'] = true ∧
    (parse_literal (.str ['3'])).isSome = true ∧
    (parse_literal (.str ['-', '3'])).isSome = true :=
  ⟨by decide, (C6_parse_literal_error_conditions.2.2.2 ['3'] (by decide)).1,
    (C6_parse_literal_error_conditions.2.2.2 ['3'] (by decide)).2⟩

/-- `applyLiteral` keeps an empty clause (no literal of an empty clause
matches anything). -/
theorem applyLiteral_preserves_nil {f : CNF} {l : Literal} {f' : CNF}
    (hf : [] ∈ f) (h : applyLiteral f l = some f') : [] ∈ f' := by
  induction f generalizing f' with
  | nil => simp at hf
  | cons c rest ih =>
    simp only [applyLiteral] at h
    split at h
    · rename_i hin
      rcases List.mem_cons.mp hf with rfl | hmem
      · simp at hin
      · exact ih hmem h
    · split at h
      · rename_i hnotin hnegin
        split at h
        · cases h
        · rcases List.mem_cons.mp hf with rfl | hmem
          · simp at hnegin
          · cases hr : applyLiteral rest l with
            | none => rw [hr] at h; cases h
            | some rest' =>
              rw [hr] at h
              injection h with h
              subst h
              exact List.mem_cons_of_mem _ (ih hmem hr)
      · cases hr : applyLiteral rest l with
        | none => rw [hr] at h; cases h
        | some rest' =>
          rw [hr] at h
          injection h with h
          subst h
          rcases List.mem_cons.mp hf with rfl | hmem
          · exact List.mem_cons_self _ _
          · exact List.mem_cons_of_mem _ (ih hmem hr)

/-- `applyPartial` either conflicts or keeps an empty clause. -/
theorem applyPartial_nil {f : CNF} (hf : [] ∈ f) :
    ∀ m : Model, applyPartial f m = none ∨
      ∃ f', applyPartial f m = some f' ∧ [] ∈ f' := by
  intro m
  induction m generalizing f with
  | nil => exact Or.inr ⟨f, rfl, hf⟩
  | cons p rest ih =>
    obtain ⟨v, b⟩ := p
    simp only [applyPartial]
    cases h : applyLiteral f ⟨v, !b⟩ with
    | none => exact Or.inl rfl
    | some f1 => exact ih (applyLiteral_preserves_nil hf h)

/-- With an empty clause present, `dpllF` reports UNSAT at any fuel. -/
theorem dpllF_emptyClause {f : CNF} (hf : [] ∈ f) (fuel : Nat) (m : Model) :
    dpllF fuel f m = some none := by
  rcases applyPartial_nil hf m with h | ⟨f1, h, hf1⟩
  · rw [dpllF]
    simp only [h]
  · rw [dpllF]
    simp only [h]
    have h1 : ¬ f1 = [] := by rintro rfl; simp at hf1
    have h2 : (f1.any fun c => c.isEmpty) = true := by
      simp only [List.any_eq_true]
      exact ⟨[], hf1, rfl⟩
    simp [h1, h2]

/-- C3: a formula containing an empty clause is decided unsatisfiable:
`dpll` returns `none` for every supplied partial model, and
`is_satisfiable` returns `false`. -/
theorem C3_empty_clause_unsat (f : CNF) (hf : [] ∈ f) :
    (∀ m : Model, dpll f m = none) ∧ is_satisfiable f = false := by
  constructor
  · intro m
    rw [dpll, dpllF_emptyClause hf]
    rfl
  · rw [is_satisfiable, dpll, dpllF_emptyClause hf]
    rfl

/-- Witness for C3 at a concrete formula with an empty clause. -/
theorem C3_witness :
    [] ∈ [[], [(⟨0, false⟩ : Literal)]] ∧
    ((∀ m : Model, dpll [[], [(⟨0, false⟩ : Literal)]] m = none) ∧
      is_satisfiable [[], [(⟨0, false⟩ : Literal)]] = false) :=
  ⟨by decide, C3_empty_clause_unsat _ (by decide)⟩

theorem firstDedupAux_nodup : ∀ (l seen : List Nat),
    (firstDedupAux l seen).Nodup ∧ ∀ x ∈ firstDedupAux l seen, x ∉ seen := by
  intro l
  induction l with
  | nil => intro seen; simp [firstDedupAux]
  | cons v rest ih =>
    intro seen
    simp only [firstDedupAux]
    split
    · obtain ⟨h1, h2⟩ := ih seen
      exact ⟨h1, h2⟩
    · rename_i hvs
      obtain ⟨h1, h2⟩ := ih (v :: seen)
      constructor
      · refine List.Nodup.cons ?_ h1
        intro hv
        exact (h2 v hv) (List.mem_cons_self _ _)
      · intro x hx
        rcases List.mem_cons.mp hx with rfl | hm
        · exact hvs
        · intro hxs
          exact (h2 x hm) (List.mem_cons_of_mem _ hxs)

theorem firstDedupAux_mem : ∀ (l seen : List Nat) (x : Nat),
    x ∈ firstDedupAux l seen → x ∈ l := by
  intro l
  induction l with
  | nil => intro seen x h; simp [firstDedupAux] at h
  | cons v rest ih =>
    intro seen x h
    simp only [firstDedupAux] at h
    split at h
    · exact List.mem_cons_of_mem _ (ih _ _ h)
    · rcases List.mem_cons.mp h with rfl | hm
      · exact List.mem_cons_self _ _
      · exact List.mem_cons_of_mem _ (ih _ _ hm)

/-- A pure literal's variable is unassigned in the model. -/
theorem pureLiterals_unassigned {f : CNF} {m : Model} {p : Literal}
    (hp : p ∈ pureLiterals f m) : lookupVar m p.var = none := by
  simp only [pureLiterals, List.mem_filterMap] at hp
  obtain ⟨v, hv, hfn⟩ := hp
  have hpv : p.var = v := by
    by_cases h1 : occursIn f ⟨v, false⟩ = true <;>
      by_cases h2 : occursIn f ⟨v, true⟩ = true <;>
      simp [h1, h2] at hfn <;> simp [← hfn]
  rw [hpv]
  have hv' := firstDedupAux_mem _ _ _ hv
  simp only [List.mem_map, List.mem_flatten, List.mem_filter] at hv'
  obtain ⟨l, ⟨c', ⟨c, hc, rfl⟩, hl⟩, hvar⟩ := hv'
  have := (List.mem_filter.mp hl).2
  simp only [Option.isNone_iff_eq_none] at this
  rw [← hvar]
  exact this

/-- The complement of a pure literal occurs in no clause. -/
theorem pureLiterals_negate_not_mem {f : CNF} {m : Model} {p : Literal}
    (hp : p ∈ pureLiterals f m) : ∀ c ∈ f, p.negate ∉ c := by
  simp only [pureLiterals, List.mem_filterMap] at hp
  obtain ⟨v, hv, hfn⟩ := hp
  by_cases h1 : occursIn f ⟨v, false⟩ = true <;>
    by_cases h2 : occursIn f ⟨v, true⟩ = true
  · simp [h1, h2] at hfn
  · simp [h1, h2] at hfn
    intro c hc hmem
    apply h2
    simp only [occursIn, List.any_eq_true]
    refine ⟨c, hc, ?_⟩
    rw [← hfn] at hmem
    simpa [Literal.negate] using hmem
  · simp [h1, h2] at hfn
    intro c hc hmem
    apply h1
    simp only [occursIn, List.any_eq_true]
    refine ⟨c, hc, ?_⟩
    rw [← hfn] at hmem
    simpa [Literal.negate] using hmem
  · simp [h1, h2] at hfn

/-- Pure literals have pairwise distinct variables. -/
theorem pureLiterals_pairwise {f : CNF} {m : Model} :
    List.Pairwise (fun a b : Literal => a.var ≠ b.var) (pureLiterals f m) := by
  rw [pureLiterals]
  simp only [firstDedup]
  have hnodup :=
    (firstDedupAux_nodup
      (((f.map (fun c => c.filter (fun l => (lookupVar m l.var).isNone))).flatten).map
        Literal.var) []).1
  have key : ∀ (vs : List Nat), vs.Nodup →
      List.Pairwise (fun a b : Literal => a.var ≠ b.var)
        (vs.filterMap (fun v =>
          let pos := occursIn f ⟨v, false⟩
          let neg := occursIn f ⟨v, true⟩
          if pos && neg then none
          else if pos then some ⟨v, false⟩
          else if neg then some ⟨v, true⟩
          else none)) := by
    intro vs hvs
    have hvar : ∀ (v : Nat) (p : Literal),
        (let pos := occursIn f ⟨v, false⟩
         let neg := occursIn f ⟨v, true⟩
         if pos && neg then none
         else if pos then some ⟨v, false⟩
         else if neg then some ⟨v, true⟩
         else none) = some p → p.var = v := by
      intro v p h
      by_cases h1 : occursIn f ⟨v, false⟩ = true <;>
        by_cases h2 : occursIn f ⟨v, true⟩ = true <;>
        simp [h1, h2] at h <;> simp [← h]
    induction vs with
    | nil => simp
    | cons v rest ih =>
      rw [List.filterMap_cons]
      have htail := ih (List.nodup_cons.mp hvs).2
      split
      · exact htail
      · rename_i p hfn
        refine List.Pairwise.cons ?_ htail
        intro q hq
        rw [List.mem_filterMap] at hq
        obtain ⟨w, hw, hqw⟩ := hq
        rw [hvar v p hfn, hvar w q hqw]
        exact fun hvw => (List.nodup_cons.mp hvs).1 (hvw ▸ hw)
  exact key _ hnodup

theorem lookupVar_append (m t : Model) (x : Nat) :
    lookupVar (m ++ t) x =
      match lookupVar m x with
      | some b => some b
      | none => lookupVar t x := by
  induction m with
  | nil => simp [lookupVar]
  | cons p rest ih =>
    obtain ⟨v, b⟩ := p
    simp only [List.cons_append, lookupVar]
    split <;> simp [ih]

theorem assign_fresh {m : Model} {l : Literal} (h : lookupVar m l.var = none) :
    assign m l = some (m ++ [(l.var, !l.negated)]) := by
  simp [assign, h]

/-- When the complement occurs nowhere, `applyLiteral` only drops
clauses: it succeeds and every surviving clause is a clause of `f`. -/
theorem applyLiteral_no_negate {f : CNF} {l : Literal}
    (h : ∀ c ∈ f, l.negate ∉ c) :
    ∃ f', applyLiteral f l = some f' ∧ ∀ c ∈ f', c ∈ f := by
  induction f with
  | nil => exact ⟨[], rfl, by simp⟩
  | cons c rest ih =>
    obtain ⟨f', hf', hsub⟩ := ih (fun c' hc' => h c' (List.mem_cons_of_mem _ hc'))
    simp only [applyLiteral]
    by_cases hin : l ∈ c
    · rw [if_pos hin]
      exact ⟨f', hf', fun c' hc' => List.mem_cons_of_mem _ (hsub c' hc')⟩
    · rw [if_neg hin, if_neg (h c (List.mem_cons_self _ _)), hf']
      refine ⟨c :: f', rfl, ?_⟩
      intro c' hc'
      rcases List.mem_cons.mp hc' with rfl | hm
      · exact List.mem_cons_self _ _
      · exact List.mem_cons_of_mem _ (hsub _ hm)

/-- The inner loop of `_eliminate_pure_literals` cannot conflict: given
the invariants the pure-literal computation guarantees, it succeeds and
only drops clauses. -/
theorem applyPures_ok : ∀ (lits : List Literal) (f : CNF) (m : Model),
    (∀ l ∈ lits, ∀ c ∈ f, l.negate ∉ c) →
    (∀ l ∈ lits, lookupVar m l.var = none) →
    List.Pairwise (fun a b : Literal => a.var ≠ b.var) lits →
    ∃ f' m', applyPures lits f m = some (f', m') ∧ ∀ c ∈ f', c ∈ f := by
  intro lits
  induction lits with
  | nil => intro f m _ _ _; exact ⟨f, m, rfl, fun _ hc => hc⟩
  | cons p rest ih =>
    intro f m hneg hun hpw
    have ha := assign_fresh (hun p (List.mem_cons_self _ _))
    obtain ⟨f1, hf1, hsub⟩ := applyLiteral_no_negate (hneg p (List.mem_cons_self _ _))
    have hneg' : ∀ l ∈ rest, ∀ c ∈ f1, l.negate ∉ c :=
      fun l hl c hc => hneg l (List.mem_cons_of_mem _ hl) c (hsub c hc)
    have hun' : ∀ l ∈ rest, lookupVar (m ++ [(p.var, !p.negated)]) l.var = none := by
      intro l hl
      rw [lookupVar_append, hun l (List.mem_cons_of_mem _ hl)]
      have hvne : p.var ≠ l.var := (List.pairwise_cons.mp hpw).1 l hl
      simp [lookupVar, hvne]
    obtain ⟨f', m', happ, hsub'⟩ := ih f1 _ hneg' hun' (List.pairwise_cons.mp hpw).2
    refine ⟨f', m', ?_, fun c hc => hsub c (hsub' c hc)⟩
    simp only [applyPures, ha, hf1, happ]

/-- `_eliminate_pure_literals` always succeeds. -/
theorem eliminatePureLiterals_isSome :
    ∀ (f : CNF) (m : Model), (eliminatePureLiterals f m).isSome = true := by
  intro f m
  induction f, m using eliminatePureLiterals.induct with
  | case1 f m hp => rw [eliminatePureLiterals_done hp]; rfl
  | case2 f m p ps hp ha =>
    obtain ⟨f', m', happ, _⟩ :=
      applyPures_ok (p :: ps) f m
        (fun l hl => pureLiterals_negate_not_mem (by rw [hp]; exact hl))
        (fun l hl => pureLiterals_unassigned (by rw [hp]; exact hl))
        (hp ▸ pureLiterals_pairwise)
    rw [happ] at ha
    cases ha
  | case3 f m p ps hp f1 m1 ha ih =>
    rw [eliminatePureLiterals_step hp ha]
    exact ih

/-- C10: `_eliminate_pure_literals` never returns a conflict — for every
formula and model it returns a formula; its two conflict branches are
unreachable.  Every pure literal's variable is unassigned (so `_assign`
cannot contradict) and its complement occurs in no clause (so
`_apply_literal` only drops clauses and cannot empty one). -/
theorem C10_eliminate_pure_literals_never_conflicts :
    ∀ (f : CNF) (m : Model), (eliminatePureLiterals f m).isSome = true :=
  eliminatePureLiterals_isSome

theorem litLT_trans {a b c : Literal} (h1 : litLT a b = true)
    (h2 : litLT b c = true) : litLT a c = true := by
  obtain ⟨av, an⟩ := a
  obtain ⟨bv, bn⟩ := b
  obtain ⟨cv, cn⟩ := c
  simp only [litLT, Bool.or_eq_true, Bool.and_eq_true, decide_eq_true_eq,
    Bool.not_eq_true'] at h1 h2 ⊢
  cases an <;> cases bn <;> cases cn <;> simp_all <;> omega

theorem litLT_total {a b : Literal} (h : litLT a b = false) :
    a = b ∨ litLT b a = true := by
  obtain ⟨av, an⟩ := a
  obtain ⟨bv, bn⟩ := b
  cases an <;> cases bn <;>
    simp_all [litLT, Literal.mk.injEq] <;> omega

/-- Characterization of Python's `min(clauses, key=len)` fold: the
result is the first clause of minimal length. -/
theorem foldlMinLen_spec : ∀ (L : List Clause) (acc r : Clause),
    L.foldl (fun a d => if d.length < a.length then d else a) acc = r →
    ∃ pre post, acc :: L = pre ++ r :: post ∧
      (∀ d ∈ pre, r.length < d.length) ∧
      (∀ d ∈ acc :: L, r.length ≤ d.length) := by
  intro L
  induction L with
  | nil =>
    intro acc r h
    simp at h
    subst h
    exact ⟨[], [], rfl, by simp, by simp⟩
  | cons d L' ih =>
    intro acc r h
    rw [List.foldl_cons] at h
    by_cases hd : d.length < acc.length
    · rw [if_pos hd] at h
      obtain ⟨pre', post', heq, hpre, hall⟩ := ih d r h
      refine ⟨acc :: pre', post', ?_, ?_, ?_⟩
      · rw [List.cons_append, ← heq]
      · intro x hx
        rcases List.mem_cons.mp hx with rfl | hm
        · have := hall d (List.mem_cons_self _ _)
          omega
        · exact hpre x hm
      · intro x hx
        rcases List.mem_cons.mp hx with rfl | hm
        · have := hall d (List.mem_cons_self _ _)
          omega
        · exact hall x hm
    · rw [if_neg hd] at h
      obtain ⟨pre', post', heq, hpre, hall⟩ := ih acc r h
      cases pre' with
      | nil =>
        simp only [List.nil_append] at heq
        injection heq with h1 h2
        refine ⟨[], d :: L', by simp [← h1, ← h2], by simp, ?_⟩
        intro x hx
        rcases List.mem_cons.mp hx with rfl | hm
        · subst h1; omega
        · rcases List.mem_cons.mp hm with rfl | hm2
          · subst h1; omega
          · exact hall x (List.mem_cons_of_mem _ hm2)
      | cons a pre'' =>
        rw [List.cons_append] at heq
        injection heq with ha hL
        subst ha
        refine ⟨acc :: d :: pre'', post', ?_, ?_, ?_⟩
        · rw [hL]
          simp
        · intro x hx
          have hacc : r.length < acc.length := hpre acc (List.mem_cons_self _ _)
          rcases List.mem_cons.mp hx with rfl | hm
          · exact hacc
          · rcases List.mem_cons.mp hm with rfl | hm2
            · omega
            · exact hpre x (List.mem_cons_of_mem _ hm2)
        · intro x hx
          have hacc : r.length < acc.length := hpre acc (List.mem_cons_self _ _)
          rcases List.mem_cons.mp hx with rfl | hm
          · omega
          · rcases List.mem_cons.mp hm with rfl | hm2
            · omega
            · exact hall x (List.mem_cons_of_mem _ hm2)

/-- Characterization of Python's `min` fold over literals: the result is
a member (or the start value) and a lower bound under the literal order. -/
theorem foldlMinLit_spec : ∀ (L : List Literal) (acc r : Literal),
    L.foldl (fun a d => if litLT d a then d else a) acc = r →
    (r = acc ∨ r ∈ L) ∧ ∀ d ∈ acc :: L, r = d ∨ litLT r d = true := by
  intro L
  induction L with
  | nil =>
    intro acc r h
    simp at h
    subst h
    refine ⟨Or.inl rfl, ?_⟩
    intro d hd
    rcases List.mem_cons.mp hd with rfl | hm
    · exact Or.inl rfl
    · simp at hm
  | cons d L' ih =>
    intro acc r h
    rw [List.foldl_cons] at h
    by_cases hd : litLT d acc = true
    · rw [if_pos hd] at h
      obtain ⟨hmem, hbound⟩ := ih d r h
      constructor
      · right
        rcases hmem with rfl | hm
        · exact List.mem_cons_self _ _
        · exact List.mem_cons_of_mem _ hm
      · intro x hx
        rcases List.mem_cons.mp hx with rfl | hm
        · rcases hbound d (List.mem_cons_self _ _) with rfl | hlt
          · exact Or.inr hd
          · exact Or.inr (litLT_trans hlt hd)
        · exact hbound x hm
    · rw [if_neg hd] at h
      obtain ⟨hmem, hbound⟩ := ih acc r h
      rw [Bool.not_eq_true] at hd
      constructor
      · rcases hmem with rfl | hm
        · exact Or.inl rfl
        · exact Or.inr (List.mem_cons_of_mem _ hm)
      · intro x hx
        rcases List.mem_cons.mp hx with rfl | hm
        · exact hbound x (List.mem_cons_self _ _)
        · rcases List.mem_cons.mp hm with rfl | hm2
          · rcases litLT_total hd with rfl | hlt
            · exact hbound x (List.mem_cons_self _ _)
            · rcases hbound acc (List.mem_cons_self _ _) with rfl | hlt2
              · exact Or.inr hlt
              · exact Or.inr (litLT_trans hlt2 hlt)
          · exact hbound x (List.mem_cons_of_mem _ hm2)

/-- C7: whenever some clause still contains an unassigned variable,
`_choose_branch_literal` returns the minimum (under the literal order)
of the unassigned literals of the smallest-by-literal-count clause among
the clauses with an unassigned variable, ties between equally small
clauses broken in favour of the earliest clause in the formula's
deterministic internal order. -/
theorem C7_choose_branch_literal (f : CNF) (m : Model)
    (h : ∃ c ∈ f, hasUnassigned m c = true) :
    ∃ (l : Literal) (c : Clause) (pre post : List Clause),
      chooseBranchLiteral f m = some l ∧
      f.filter (hasUnassigned m) = pre ++ c :: post ∧
      (∀ c' ∈ pre, c.length < c'.length) ∧
      (∀ c' ∈ f, hasUnassigned m c' = true → c.length ≤ c'.length) ∧
      l ∈ c ∧ (lookupVar m l.var).isNone = true ∧
      (∀ l' ∈ c, (lookupVar m l'.var).isNone = true →
        l = l' ∨ litLT l l' = true) := by
  obtain ⟨ch, hch, hun⟩ := h
  have hmemf : ch ∈ f.filter (hasUnassigned m) := List.mem_filter.mpr ⟨hch, hun⟩
  cases hcands : f.filter (hasUnassigned m) with
  | nil => rw [hcands] at hmemf; simp at hmemf
  | cons c0 cs =>
    obtain ⟨c, hc⟩ : ∃ c, cs.foldl (fun a d => if d.length < a.length then d else a) c0 = c :=
      ⟨_, rfl⟩
    obtain ⟨pre, post, heq, hpre, hall⟩ := foldlMinLen_spec cs c0 c hc
    have hcmem' : c ∈ f.filter (hasUnassigned m) := by
      rw [hcands, heq]
      exact List.mem_append_right _ (List.mem_cons_self _ _)
    have hcand : hasUnassigned m c = true := (List.mem_filter.mp hcmem').2
    have hex : ∃ l0 ∈ c, (lookupVar m l0.var).isNone = true := by
      simpa [hasUnassigned, List.any_eq_true] using hcand
    obtain ⟨l0, hl0, hl0un⟩ := hex
    have hl0' : l0 ∈ c.filter (fun l => (lookupVar m l.var).isNone) :=
      List.mem_filter.mpr ⟨hl0, hl0un⟩
    cases hu : c.filter (fun l => (lookupVar m l.var).isNone) with
    | nil => rw [hu] at hl0'; simp at hl0'
    | cons u0 us =>
      obtain ⟨l, hl⟩ : ∃ l, us.foldl (fun a d => if litLT d a then d else a) u0 = l :=
        ⟨_, rfl⟩
      obtain ⟨hlmem, hlbound⟩ := foldlMinLit_spec us u0 l hl
      have hlmem' : l ∈ u0 :: us := by
        rcases hlmem with rfl | hm
        · exact List.mem_cons_self _ _
        · exact List.mem_cons_of_mem _ hm
      have hlmemfil : l ∈ c.filter (fun l => (lookupVar m l.var).isNone) := by
        rw [hu]; exact hlmem'
      have hlc := List.mem_filter.mp hlmemfil
      refine ⟨l, c, pre, post, ?_, heq, hpre, ?_, hlc.1, hlc.2, ?_⟩
      · simp only [chooseBranchLiteral, hcands, minByLen, minLit, hu, hc, hl]
      · intro c' hc' hunc'
        have : c' ∈ f.filter (hasUnassigned m) := List.mem_filter.mpr ⟨hc', hunc'⟩
        rw [hcands] at this
        exact hall c' this
      · intro l' hl' hl'un
        have : l' ∈ u0 :: us := by
          rw [← hu]
          exact List.mem_filter.mpr ⟨hl', hl'un⟩
        exact hlbound l' this

/-- Witness for C7 at a concrete formula and the empty model. -/
theorem C7_witness :
    (∃ c ∈ [[(⟨1, false⟩ : Literal), ⟨2, true⟩], [⟨3, false⟩]],
      hasUnassigned [] c = true) ∧
    (∃ (l : Literal) (c : Clause) (pre post : List Clause),
      chooseBranchLiteral [[(⟨1, false⟩ : Literal), ⟨2, true⟩], [⟨3, false⟩]] [] = some l ∧
      ([[(⟨1, false⟩ : Literal), ⟨2, true⟩], [⟨3, false⟩]].filter (hasUnassigned [])) =
        pre ++ c :: post ∧
      (∀ c' ∈ pre, c.length < c'.length) ∧
      (∀ c' ∈ [[(⟨1, false⟩ : Literal), ⟨2, true⟩], [⟨3, false⟩]],
        hasUnassigned [] c' = true → c.length ≤ c'.length) ∧
      l ∈ c ∧ (lookupVar [] l.var).isNone = true ∧
      (∀ l' ∈ c, (lookupVar [] l'.var).isNone = true →
        l = l' ∨ litLT l l' = true)) :=
  ⟨by decide, C7_choose_branch_literal _ _ (by decide)⟩

/-- Only two literals share a variable: the literal and its complement. -/
theorem eq_or_eq_negate_of_var_eq {x l : Literal} (h : x.var = l.var) :
    x = l ∨ x = l.negate := by
  obtain ⟨xv, xn⟩ := x
  obtain ⟨lv, ln⟩ := l
  simp only at h
  subst h
  cases xn <;> cases ln <;> simp [Literal.negate]

/-- Every clause of the result of a simplification step is (literal-wise)
contained in some clause of the input. -/
def ClauseSub (f' f : CNF) : Prop := ∀ c' ∈ f', ∃ c ∈ f, ∀ x ∈ c', x ∈ c

theorem ClauseSub.rfl {f : CNF} : ClauseSub f f :=
  fun c' hc' => ⟨c', hc', fun _ hx => hx⟩

theorem ClauseSub.trans {f1 f2 f3 : CNF} (h1 : ClauseSub f1 f2)
    (h2 : ClauseSub f2 f3) : ClauseSub f1 f3 := by
  intro c' hc'
  obtain ⟨c, hc, hsub⟩ := h1 c' hc'
  obtain ⟨cc, hcc, hsub2⟩ := h2 c hc
  exact ⟨cc, hcc, fun x hx => hsub2 x (hsub x hx)⟩

theorem applyLiteral_clauseSub {f : CNF} {lt : Literal} {f' : CNF}
    (h : applyLiteral f lt = some f') : ClauseSub f' f := by
  induction f generalizing f' with
  | nil =>
    simp [applyLiteral] at h
    subst h
    intro c' hc'
    simp at hc' 
  | cons c rest ih =>
    simp only [applyLiteral] at h
    split at h
    · intro c' hc'
      obtain ⟨cc, hcc, hs⟩ := ih h c' hc'
      exact ⟨cc, List.mem_cons_of_mem _ hcc, hs⟩
    · split at h
      · split at h
        · cases h
        · cases hr : applyLiteral rest lt with
          | none => rw [hr] at h; cases h
          | some rest' =>
            rw [hr] at h
            injection h with h
            subst h
            intro c' hc'
            rcases List.mem_cons.mp hc' with rfl | hm
            · exact ⟨c, List.mem_cons_self _ _,
                fun x hx => List.mem_of_mem_filter hx⟩
            · obtain ⟨cc, hcc, hs⟩ := ih hr c' hm
              exact ⟨cc, List.mem_cons_of_mem _ hcc, hs⟩
      · cases hr : applyLiteral rest lt with
        | none => rw [hr] at h; cases h
        | some rest' =>
          rw [hr] at h
          injection h with h
          subst h
          intro c' hc'
          rcases List.mem_cons.mp hc' with rfl | hm
          · exact ⟨c', List.mem_cons_self _ _, fun _ hx => hx⟩
          · obtain ⟨cc, hcc, hs⟩ := ih hr c' hm
            exact ⟨cc, List.mem_cons_of_mem _ hcc, hs⟩

/-- `applyLiteral` removes the applied literal's variable entirely. -/
theorem applyLiteral_no_var {f : CNF} {lt : Literal} {f' : CNF}
    (h : applyLiteral f lt = some f') :
    ∀ c' ∈ f', ∀ x ∈ c', x.var ≠ lt.var := by
  induction f generalizing f' with
  | nil =>
    simp [applyLiteral] at h
    subst h
    intro c' hc'
    simp at hc'
  | cons c rest ih =>
    simp only [applyLiteral] at h
    split at h
    · exact ih h
    · rename_i hnotin
      split at h
      · rename_i hnegin
        split at h
        · cases h
        · cases hr : applyLiteral rest lt with
          | none => rw [hr] at h; cases h
          | some rest' =>
            rw [hr] at h
            injection h with h
            subst h
            intro c' hc'
            rcases List.mem_cons.mp hc' with rfl | hm
            · intro x hx hvar
              have hxmem := List.mem_of_mem_filter hx
              have hxne : x ≠ lt.negate := by
                have := List.of_mem_filter hx
                simpa using this
              rcases eq_or_eq_negate_of_var_eq hvar with rfl | rfl
              · exact hnotin hxmem
              · exact hxne rfl
            · exact ih hr c' hm
      · rename_i hnotin2
        cases hr : applyLiteral rest lt with
        | none => rw [hr] at h; cases h
        | some rest' =>
          rw [hr] at h
          injection h with h
          subst h
          intro c' hc'
          rcases List.mem_cons.mp hc' with rfl | hm
          · intro x hx hvar
            rcases eq_or_eq_negate_of_var_eq hvar with rfl | rfl
            · exact hnotin hx
            · exact hnotin2 hx
          · exact ih hr c' hm

theorem applyPartial_clauseSub {m : Model} : ∀ {f f' : CNF},
    applyPartial f m = some f' → ClauseSub f' f := by
  induction m with
  | nil =>
    intro f f' h
    simp only [applyPartial] at h
    injection h with h
    subst h
    exact ClauseSub.rfl
  | cons p rest ih =>
    intro f f' h
    obtain ⟨v, b⟩ := p
    simp only [applyPartial] at h
    cases ha : applyLiteral f ⟨v, !b⟩ with
    | none => rw [ha] at h; cases h
    | some f1 =>
      rw [ha] at h
      exact ClauseSub.trans (ih h) (applyLiteral_clauseSub ha)

theorem unitPropagate_clauseSub {f : CNF} {m : Model} :
    ∀ {f' m'}, unitPropagate f m = some (f', m') → ClauseSub f' f := by
  induction f, m using unitPropagate.induct with
  | case1 f m hu =>
    intro f' m' h
    rw [unitPropagate_done hu] at h
    injection h with h
    injection h with h1 h2
    subst h1
    exact ClauseSub.rfl
  | case2 f m u hu ha =>
    intro f' m' h
    rw [unitPropagate_conflict1 hu ha] at h
    cases h
  | case3 f m u hu m1 ha hb =>
    intro f' m' h
    rw [unitPropagate_conflict2 hu ha hb] at h
    cases h
  | case4 f m u hu m1 ha f1 hb ih =>
    intro f' m' h
    rw [unitPropagate_step hu ha hb] at h
    exact ClauseSub.trans (ih h) (applyLiteral_clauseSub hb)

theorem applyPures_clauseSub : ∀ {lits : List Literal} {f : CNF} {m : Model}
    {f' : CNF} {m' : Model}, applyPures lits f m = some (f', m') →
    ClauseSub f' f := by
  intro lits
  induction lits with
  | nil =>
    intro f m f' m' h
    simp only [applyPures] at h
    injection h with h
    injection h with h1 h2
    subst h1
    exact ClauseSub.rfl
  | cons l rest ih =>
    intro f m f' m' h
    simp only [applyPures] at h
    cases ha : assign m l with
    | none => rw [ha] at h; cases h
    | some m1 =>
      rw [ha] at h
      cases hb : applyLiteral f l with
      | none => rw [hb] at h; cases h
      | some f1 =>
        rw [hb] at h
        exact ClauseSub.trans (ih h) (applyLiteral_clauseSub hb)

theorem eliminatePureLiterals_clauseSub {f : CNF} {m : Model} :
    ∀ {f' m'}, eliminatePureLiterals f m = some (f', m') → ClauseSub f' f := by
  induction f, m using eliminatePureLiterals.induct with
  | case1 f m hp =>
    intro f' m' h
    rw [eliminatePureLiterals_done hp] at h
    injection h with h
    injection h with h1 h2
    subst h1
    exact ClauseSub.rfl
  | case2 f m p ps hp ha =>
    intro f' m' h
    rw [eliminatePureLiterals_conflict hp ha] at h
    cases h
  | case3 f m p ps hp f1 m1 ha ih =>
    intro f' m' h
    rw [eliminatePureLiterals_step hp ha] at h
    exact ClauseSub.trans (ih h) (applyPures_clauseSub ha)

theorem simpLoop_clauseSub {f : CNF} {m : Model} :
    ∀ {f' m'}, simpLoop f m = some (f', m') → ClauseSub f' f := by
  induction f, m using simpLoop.induct with
  | case1 f m hu =>
    intro f' m' h
    rw [simpLoop_upConflict hu] at h
    cases h
  | case2 f m f1 m1 hu he =>
    intro f' m' h
    rw [simpLoop_elimConflict hu he] at h
    cases h
  | case3 f m f1 m1 hu m2 he =>
    intro f' m' h
    rw [simpLoop_finish hu he (Or.inl rfl)] at h
    injection h with h
    injection h with h1 h2
    subst h1
    intro c' hc'
    simp at hc'
  | case4 m f1 m1 f2 m2 he h0 hu =>
    intro f' m' h
    rw [simpLoop_finish hu he (Or.inr rfl)] at h
    injection h with h
    injection h with h1 h2
    subst h1
    exact ClauseSub.rfl
  | case5 f m f1 m1 hu f2 m2 he h0 h1 ih =>
    intro f' m' h
    rw [simpLoop_step hu he h0 h1] at h
    exact ClauseSub.trans (ih h)
      (ClauseSub.trans (eliminatePureLiterals_clauseSub he)
        (unitPropagate_clauseSub hu))

theorem mem_varsOf {v : Nat} {f : CNF} :
    v ∈ varsOf f ↔ ∃ c ∈ f, ∃ l ∈ c, l.var = v := by
  simp only [varsOf, List.mem_toFinset, List.mem_map, List.mem_flatten]
  constructor
  · rintro ⟨l, ⟨c, hc, hl⟩, hv⟩
    exact ⟨c, hc, l, hl, hv⟩
  · rintro ⟨c, hc, l, hl, hv⟩
    exact ⟨l, ⟨c, hc, hl⟩, hv⟩

theorem varsOf_mono {f' f : CNF} (h : ClauseSub f' f) : varsOf f' ⊆ varsOf f := by
  intro v hv
  rw [mem_varsOf] at hv ⊢
  obtain ⟨c', hc', l, hl, hv⟩ := hv
  obtain ⟨c, hc, hs⟩ := h c' hc'
  exact ⟨c, hc, l, hs l hl, hv⟩

theorem varsOf_applyLiteral {f : CNF} {lt : Literal} {f' : CNF}
    (h : applyLiteral f lt = some f') : varsOf f' ⊆ (varsOf f).erase lt.var := by
  intro v hv
  rw [mem_varsOf] at hv
  obtain ⟨c', hc', l, hl, hveq⟩ := hv
  rw [Finset.mem_erase]
  constructor
  · rw [← hveq]
    exact applyLiteral_no_var h c' hc' l hl
  · exact varsOf_mono (applyLiteral_clauseSub h) (mem_varsOf.mpr ⟨c', hc', l, hl, hveq⟩)

theorem minByLen_mem {L : List Clause} {c : Clause} (h : minByLen L = some c) :
    c ∈ L := by
  cases L with
  | nil => simp [minByLen] at h
  | cons c0 cs =>
    simp only [minByLen] at h
    injection h with h
    obtain ⟨pre, post, heq, _, _⟩ := foldlMinLen_spec cs c0 c h
    rw [heq]
    exact List.mem_append_right _ (List.mem_cons_self _ _)

theorem minLit_mem {L : List Literal} {l : Literal} (h : minLit L = some l) :
    l ∈ L := by
  cases L with
  | nil => simp [minLit] at h
  | cons u0 us =>
    simp only [minLit] at h
    injection h with h
    obtain ⟨hmem, _⟩ := foldlMinLit_spec us u0 l h
    rcases hmem with rfl | hm
    · exact List.mem_cons_self _ _
    · exact List.mem_cons_of_mem _ hm

/-- The branch literal comes from a clause of the formula. -/
theorem chooseBranchLiteral_mem {f : CNF} {m : Model} {l : Literal}
    (h : chooseBranchLiteral f m = some l) : ∃ c ∈ f, l ∈ c := by
  rw [chooseBranchLiteral] at h
  cases hcands : f.filter (hasUnassigned m) with
  | nil =>
    rw [hcands] at h
    cases hmin : minByLen f with
    | none => rw [hmin] at h; cases h
    | some c =>
      rw [hmin] at h
      have h' : minLit c = some l := h
      exact ⟨c, minByLen_mem hmin, minLit_mem h'⟩
  | cons c0 cs =>
    rw [hcands] at h
    have h2 : (match minByLen (c0 :: cs) with
      | none => none
      | some c => minLit (c.filter (fun x => (lookupVar m x.var).isNone))) = some l := h
    cases hmin : minByLen (c0 :: cs) with
    | none => simp [minByLen] at hmin
    | some c =>
      rw [hmin] at h2
      have h' : minLit (c.filter (fun x => (lookupVar m x.var).isNone)) = some l := h2
      have hcf : c ∈ f := by
        have : c ∈ f.filter (hasUnassigned m) := by
          rw [hcands]
          exact minByLen_mem hmin
        exact (List.mem_filter.mp this).1
      exact ⟨c, hcf, List.mem_of_mem_filter (minLit_mem h')⟩

/-- Fuel equal to the number of distinct variables always suffices:
`dpllF` never exhausts it (each recursive call eliminates the branch
variable from the formula it passes down). -/
theorem dpllF_enough : ∀ (fuel : Nat) (f : CNF) (m : Model),
    (varsOf f).card ≤ fuel → (dpllF fuel f m).isSome = true := by
  intro fuel
  induction fuel using Nat.strong_induction_on with
  | _ fuel ih =>
    intro f m hle
    rw [dpllF]
    cases hA : applyPartial f m with
    | none => rfl
    | some f1 =>
      simp only []
      by_cases h1 : f1 = []
      · rw [if_pos h1]
        rfl
      · rw [if_neg h1]
        by_cases h2 : (f1.any fun c => c.isEmpty) = true
        · rw [if_pos h2]
          rfl
        · rw [if_neg h2]
          cases hS : simpLoop f1 m with
          | none => rfl
          | some p =>
            obtain ⟨f2, m2⟩ := p
            simp only []
            by_cases h3 : f2 = []
            · rw [if_pos h3]
              rfl
            · rw [if_neg h3]
              cases hC : chooseBranchLiteral f2 m2 with
              | none => rfl
              | some lit =>
                simp only []
                have hvar2 : lit.var ∈ varsOf f2 := by
                  obtain ⟨c, hcf2, hlc⟩ := chooseBranchLiteral_mem hC
                  exact mem_varsOf.mpr ⟨c, hcf2, lit, hlc, rfl⟩
                have hvar : lit.var ∈ varsOf f :=
                  varsOf_mono (ClauseSub.trans (simpLoop_clauseSub hS)
                    (applyPartial_clauseSub hA)) hvar2
                have hcard : 1 ≤ (varsOf f).card :=
                  Finset.card_pos.mpr ⟨lit.var, hvar⟩
                cases fuel with
                | zero => exact absurd hle (by omega)
                | succ n =>
                  have hrec : ∀ (bl : Literal) (fB : CNF) (mB : Model),
                      bl.var = lit.var → applyLiteral f2 bl = some fB →
                      (dpllF n fB mB).isSome = true := by
                    intro bl fB mB hblv happ
                    apply ih n (Nat.lt_succ_self n)
                    have hsub : varsOf fB ⊆ (varsOf f2).erase lit.var := by
                      rw [← hblv]
                      exact varsOf_applyLiteral happ
                    have hsub2 : varsOf f2 ⊆ varsOf f :=
                      varsOf_mono (ClauseSub.trans (simpLoop_clauseSub hS)
                        (applyPartial_clauseSub hA))
                    have hc1 : (varsOf fB).card ≤ ((varsOf f).erase lit.var).card :=
                      Finset.card_le_card
                        (hsub.trans (Finset.erase_subset_erase _ hsub2))
                    rw [Finset.card_erase_of_mem hvar] at hc1
                    omega
                  have hrest : (match assign m2 lit.negate with
                      | none => some none
                      | some mB =>
                        match applyLiteral f2 lit.negate with
                        | none => some none
                        | some fB => dpllF n fB mB).isSome = true := by
                    cases haB : assign m2 lit.negate with
                    | none => rfl
                    | some mB =>
                      simp only []
                      cases hbB : applyLiteral f2 lit.negate with
                      | none => rfl
                      | some fB =>
                        simp only []
                        exact hrec lit.negate fB mB rfl hbB
                  simp only []
                  cases haA : assign m2 lit with
                  | none => exact hrest
                  | some mA =>
                    simp only []
                    cases hbA : applyLiteral f2 lit with
                    | none => exact hrest
                    | some fA =>
                      simp only []
                      have h5 := hrec lit fA mA rfl hbA
                      cases hd : dpllF n fA mA with
                      | none => rw [hd] at h5; exact absurd h5 (by simp)
                      | some r =>
                        cases r with
                        | none => exact hrest
                        | some rr => rfl

/-- Running `dpllF` with fuel = number of distinct variables completes
and computes `dpll`'s result. -/
theorem dpllF_run (f : CNF) (m : Model) :
    dpllF ((varsOf f).card) f m = some (dpll f m) := by
  have h := dpllF_enough ((varsOf f).card) f m le_rfl
  cases hd : dpllF ((varsOf f).card) f m with
  | none => rw [hd] at h; exact absurd h (by simp)
  | some r =>
    rw [dpll, hd]
    rfl

/-- C8: `dpll` terminates on every formula and partial model, and the
depth of its recursive self-calls is bounded by the number of distinct
variables of the formula: the fuelled embedding `dpllF`, which spends
one unit of fuel per recursive self-call and returns `none` on fuel
exhaustion, completes (never exhausts) with fuel `(varsOf f).card` and
computes `dpll`'s result. -/
theorem C8_dpll_terminates_depth_bound : ∀ (f : CNF) (m : Model),
    dpllF ((varsOf f).card) f m = some (dpll f m) :=
  dpllF_run

/-- A Python dict has no duplicate keys; the association-list models the
solver manipulates always satisfy this. -/
def ModelWF (m : Model) : Prop := (m.map Prod.fst).Nodup

theorem lookupVar_none_iff {m : Model} {v : Nat} :
    lookupVar m v = none ↔ v ∉ m.map Prod.fst := by
  induction m with
  | nil => simp [lookupVar]
  | cons p rest ih =>
    obtain ⟨v0, b0⟩ := p
    simp only [lookupVar, List.map_cons, List.mem_cons]
    split
    · rename_i hv
      subst hv
      simp
    · rename_i hv
      rw [ih]
      simp only [List.mem_cons, not_or]
      constructor
      · intro h
        exact ⟨fun he => hv he.symm, h⟩
      · intro h
        exact h.2

theorem lookupVar_some_mem {m : Model} {v : Nat} {b : Bool}
    (h : lookupVar m v = some b) : (v, b) ∈ m := by
  induction m with
  | nil => simp [lookupVar] at h
  | cons p rest ih =>
    obtain ⟨v0, b0⟩ := p
    simp only [lookupVar] at h
    split at h
    · rename_i hv
      injection h with h
      subst hv
      subst h
      exact List.mem_cons_self _ _
    · exact List.mem_cons_of_mem _ (ih h)

theorem ModelWF_lookup {M : Model} (hwf : ModelWF M) {v : Nat} {b : Bool}
    (h : (v, b) ∈ M) : lookupVar M v = some b := by
  induction M with
  | nil => simp at h
  | cons p rest ih =>
    obtain ⟨v0, b0⟩ := p
    rcases List.mem_cons.mp h with heq | hmem
    · injection heq with h1 h2
      subst h1
      subst h2
      simp [lookupVar]
    · simp only [lookupVar]
      have hne : v0 ≠ v := by
        intro hv
        subst hv
        have : v0 ∈ rest.map Prod.fst :=
          List.mem_map.mpr ⟨(v0, b), hmem, rfl⟩
        exact (List.nodup_cons.mp hwf).1 this
      rw [if_neg hne]
      exact ih (List.nodup_cons.mp hwf).2 hmem

theorem lookupVar_append_left {m t : Model} {v : Nat} {b : Bool}
    (h : lookupVar m v = some b) : lookupVar (m ++ t) v = some b := by
  rw [lookupVar_append, h]

/-- `_assign` on success: the model grows by appending, stays
duplicate-free, and afterwards maps the literal's variable to the value
making the literal true. -/
theorem assign_spec {m : Model} {l : Literal} {m' : Model}
    (h : assign m l = some m') :
    (∃ t, m' = m ++ t) ∧ lookupVar m' l.var = some (!l.negated) ∧
      (ModelWF m → ModelWF m') := by
  simp only [assign] at h
  cases hl : lookupVar m l.var with
  | none =>
    rw [hl] at h
    have h' : some (m ++ [(l.var, !l.negated)]) = some m' := h
    injection h' with h'
    subst h'
    refine ⟨⟨_, rfl⟩, ?_, ?_⟩
    · rw [lookupVar_append, hl]
      simp [lookupVar]
    · intro hwf
      simp only [ModelWF, List.map_append, List.nodup_append]
      refine ⟨hwf, by simp, ?_⟩
      intro x hx hx2
      simp only [List.map_cons, List.map_nil, List.mem_singleton] at hx2
      subst hx2
      exact (lookupVar_none_iff.mp hl) hx
  | some existing =>
    rw [hl] at h
    have h' : (if existing = !l.negated then some m else none) = some m' := h
    split at h'
    · rename_i hex
      injection h' with h'
      subst h'
      exact ⟨⟨[], by simp⟩, by rw [hl, hex], fun hwf => hwf⟩
    · cases h' 

theorem litEval_true_of_lookup {M : Model} {l : Literal}
    (h : lookupVar M l.var = some (!l.negated)) : litEval M l = true := by
  simp only [litEval, h]
  cases hn : l.negated <;> simp [hn]

/-- Model-growth composition. -/
theorem growth_trans {a b c : Model} (h1 : ∃ t, b = a ++ t)
    (h2 : ∃ t, c = b ++ t) : ∃ t, c = a ++ t := by
  obtain ⟨t1, rfl⟩ := h1
  obtain ⟨t2, rfl⟩ := h2
  exact ⟨t1 ++ t2, by rw [List.append_assoc]⟩

/-- Entries of a model the final model extends are looked up faithfully
in the final model (needs no-duplicate keys). -/
theorem agree_of_growth {M a : Model} (hwfM : ModelWF M)
    (hab : ∃ t, M = a ++ t) : ∀ p ∈ a, lookupVar M p.1 = some p.2 := by
  intro p hp
  obtain ⟨t, rfl⟩ := hab
  exact ModelWF_lookup hwfM (List.mem_append_left _ hp)

/-- Soundness of `_apply_literal`: a model that makes the applied
literal true and satisfies the simplified formula satisfies the original
formula. -/
theorem applyLiteral_sound {f : CNF} {lt : Literal} {f' : CNF} {M : Model}
    (h : applyLiteral f lt = some f')
    (hlit : lookupVar M lt.var = some (!lt.negated))
    (hev : evaluate_cnf f' M = true) : evaluate_cnf f M = true := by
  induction f generalizing f' with
  | nil => simp [evaluate_cnf]
  | cons c rest ih =>
    simp only [applyLiteral] at h
    rw [evaluate_cnf, List.all_cons, Bool.and_eq_true]
    split at h
    · rename_i hin
      exact ⟨List.any_eq_true.mpr ⟨lt, hin, litEval_true_of_lookup hlit⟩, ih h hev⟩
    · split at h
      · split at h
        · cases h
        · cases hr : applyLiteral rest lt with
          | none => rw [hr] at h; cases h
          | some rest' =>
            rw [hr] at h
            injection h with h
            subst h
            rw [evaluate_cnf, List.all_cons, Bool.and_eq_true] at hev
            obtain ⟨h1, h2⟩ := hev
            obtain ⟨x, hx, hxe⟩ := List.any_eq_true.mp h1
            exact ⟨List.any_eq_true.mpr ⟨x, List.mem_of_mem_filter hx, hxe⟩, ih hr h2⟩
      · cases hr : applyLiteral rest lt with
        | none => rw [hr] at h; cases h
        | some rest' =>
          rw [hr] at h
          injection h with h
          subst h
          rw [evaluate_cnf, List.all_cons, Bool.and_eq_true] at hev
          exact ⟨hev.1, ih hr hev.2⟩

/-- Soundness of `_unit_propagate`. -/
theorem unitPropagate_sound {f : CNF} {m : Model} :
    ∀ {f' m'}, unitPropagate f m = some (f', m') →
      (∃ t, m' = m ++ t) ∧ (ModelWF m → ModelWF m') ∧
      ∀ M : Model, (∀ p ∈ m', lookupVar M p.1 = some p.2) →
        evaluate_cnf f' M = true → evaluate_cnf f M = true := by
  induction f, m using unitPropagate.induct with
  | case1 f m hu =>
    intro f' m' h
    rw [unitPropagate_done hu] at h
    injection h with h
    injection h with h1 h2
    subst h1
    subst h2
    exact ⟨⟨[], by simp⟩, fun hwf => hwf, fun M _ he => he⟩
  | case2 f m u hu ha =>
    intro f' m' h
    rw [unitPropagate_conflict1 hu ha] at h
    cases h
  | case3 f m u hu m1 ha hb =>
    intro f' m' h
    rw [unitPropagate_conflict2 hu ha hb] at h
    cases h
  | case4 f m u hu m1 ha f1 hb ih =>
    intro f' m' h
    rw [unitPropagate_step hu ha hb] at h
    obtain ⟨hg1, hwf1, hev1⟩ := ih h
    obtain ⟨hg0, hlk, hwf0⟩ := assign_spec ha
    refine ⟨growth_trans hg0 hg1, fun hwf => hwf1 (hwf0 hwf), ?_⟩
    intro M hag hev
    have hmem' : (u.var, !u.negated) ∈ m' := by
      obtain ⟨t1, rfl⟩ := hg1
      exact List.mem_append_left _ (lookupVar_some_mem hlk)
    exact applyLiteral_sound hb (hag _ hmem') (hev1 M hag hev)

/-- Soundness of the inner pure-literal application loop. -/
theorem applyPures_sound : ∀ {lits : List Literal} {f : CNF} {m : Model}
    {f' : CNF} {m' : Model}, applyPures lits f m = some (f', m') →
    (∃ t, m' = m ++ t) ∧ (ModelWF m → ModelWF m') ∧
    ∀ M : Model, (∀ p ∈ m', lookupVar M p.1 = some p.2) →
      evaluate_cnf f' M = true → evaluate_cnf f M = true := by
  intro lits
  induction lits with
  | nil =>
    intro f m f' m' h
    simp only [applyPures] at h
    injection h with h
    injection h with h1 h2
    subst h1
    subst h2
    exact ⟨⟨[], by simp⟩, fun hwf => hwf, fun M _ he => he⟩
  | cons l rest ih =>
    intro f m f' m' h
    simp only [applyPures] at h
    cases ha : assign m l with
    | none => rw [ha] at h; cases h
    | some m1 =>
      rw [ha] at h
      cases hb : applyLiteral f l with
      | none => rw [hb] at h; cases h
      | some f1 =>
        rw [hb] at h
        obtain ⟨hg1, hwf1, hev1⟩ := ih h
        obtain ⟨hg0, hlk, hwf0⟩ := assign_spec ha
        refine ⟨growth_trans hg0 hg1, fun hwf => hwf1 (hwf0 hwf), ?_⟩
        intro M hag hev
        have hmem' : (l.var, !l.negated) ∈ m' := by
          obtain ⟨t1, rfl⟩ := hg1
          exact List.mem_append_left _ (lookupVar_some_mem hlk)
        exact applyLiteral_sound hb (hag _ hmem') (hev1 M hag hev)

/-- Soundness of `_eliminate_pure_literals`. -/
theorem eliminatePureLiterals_sound {f : CNF} {m : Model} :
    ∀ {f' m'}, eliminatePureLiterals f m = some (f', m') →
      (∃ t, m' = m ++ t) ∧ (ModelWF m → ModelWF m') ∧
      ∀ M : Model, (∀ p ∈ m', lookupVar M p.1 = some p.2) →
        evaluate_cnf f' M = true → evaluate_cnf f M = true := by
  induction f, m using eliminatePureLiterals.induct with
  | case1 f m hp =>
    intro f' m' h
    rw [eliminatePureLiterals_done hp] at h
    injection h with h
    injection h with h1 h2
    subst h1
    subst h2
    exact ⟨⟨[], by simp⟩, fun hwf => hwf, fun M _ he => he⟩
  | case2 f m p ps hp ha =>
    intro f' m' h
    rw [eliminatePureLiterals_conflict hp ha] at h
    cases h
  | case3 f m p ps hp f1 m1 ha ih =>
    intro f' m' h
    rw [eliminatePureLiterals_step hp ha] at h
    obtain ⟨hg1, hwf1, hev1⟩ := ih h
    obtain ⟨hg0, hwf0, hev0⟩ := applyPures_sound ha
    refine ⟨growth_trans hg0 hg1, fun hwf => hwf1 (hwf0 hwf), ?_⟩
    intro M hag hev
    refine hev0 M ?_ (hev1 M hag hev)
    intro p' hp'
    obtain ⟨t1, rfl⟩ := hg1
    exact hag _ (List.mem_append_left _ hp')

/-- Soundness of the simplification loop of `dpll`. -/
theorem simpLoop_sound {f : CNF} {m : Model} :
    ∀ {f' m'}, simpLoop f m = some (f', m') →
      (∃ t, m' = m ++ t) ∧ (ModelWF m → ModelWF m') ∧
      ∀ M : Model, (∀ p ∈ m', lookupVar M p.1 = some p.2) →
        evaluate_cnf f' M = true → evaluate_cnf f M = true := by
  induction f, m using simpLoop.induct with
  | case1 f m hu =>
    intro f' m' h
    rw [simpLoop_upConflict hu] at h
    cases h
  | case2 f m f1 m1 hu he =>
    intro f' m' h
    rw [simpLoop_elimConflict hu he] at h
    cases h
  | case3 f m f1 m1 hu m2 he =>
    intro f' m' h
    rw [simpLoop_finish hu he (Or.inl rfl)] at h
    injection h with h
    injection h with h1 h2
    subst h1
    subst h2
    obtain ⟨hgu, hwfu, hevu⟩ := unitPropagate_sound hu
    obtain ⟨hge, hwfe, heve⟩ := eliminatePureLiterals_sound he
    refine ⟨growth_trans hgu hge, fun hwf => hwfe (hwfu hwf), ?_⟩
    intro M hag hev
    refine hevu M ?_ (heve M hag hev)
    intro p' hp'
    obtain ⟨t1, rfl⟩ := hge
    exact hag _ (List.mem_append_left _ hp')
  | case4 m f1 m1 f2 m2 he h0 hu =>
    intro f' m' h
    rw [simpLoop_finish hu he (Or.inr rfl)] at h
    injection h with h
    injection h with h1 h2
    subst h1
    subst h2
    obtain ⟨hgu, hwfu, hevu⟩ := unitPropagate_sound hu
    obtain ⟨hge, hwfe, heve⟩ := eliminatePureLiterals_sound he
    refine ⟨growth_trans hgu hge, fun hwf => hwfe (hwfu hwf), ?_⟩
    intro M hag hev
    refine hevu M ?_ (heve M hag hev)
    intro p' hp'
    obtain ⟨t1, rfl⟩ := hge
    exact hag _ (List.mem_append_left _ hp')
  | case5 f m f1 m1 hu f2 m2 he h0 h1 ih =>
    intro f' m' h
    rw [simpLoop_step hu he h0 h1] at h
    obtain ⟨hg2, hwf2, hev2⟩ := ih h
    obtain ⟨hgu, hwfu, hevu⟩ := unitPropagate_sound hu
    obtain ⟨hge, hwfe, heve⟩ := eliminatePureLiterals_sound he
    refine ⟨growth_trans (growth_trans hgu hge) hg2,
      fun hwf => hwf2 (hwfe (hwfu hwf)), ?_⟩
    intro M hag hev
    have hagm2 : ∀ p ∈ m2, lookupVar M p.1 = some p.2 := by
      intro p' hp'
      obtain ⟨t1, rfl⟩ := hg2
      exact hag _ (List.mem_append_left _ hp')
    have hagm1 : ∀ p ∈ m1, lookupVar M p.1 = some p.2 := by
      intro p' hp'
      obtain ⟨t1, rfl⟩ := hge
      exact hagm2 _ (List.mem_append_left _ hp')
    exact hevu M hagm1 (heve M hagm2 (hev2 M hag hev))

/-- Soundness of the upfront partial-model application in `dpll`. -/
theorem applyPartial_sound {m : Model} : ∀ {f f' : CNF},
    applyPartial f m = some f' →
    ∀ M : Model, (∀ p ∈ m, lookupVar M p.1 = some p.2) →
    evaluate_cnf f' M = true → evaluate_cnf f M = true := by
  induction m with
  | nil =>
    intro f f' h M _ hev
    simp only [applyPartial] at h
    injection h with h
    subst h
    exact hev
  | cons p rest ih =>
    intro f f' h M hag hev
    obtain ⟨v, b⟩ := p
    simp only [applyPartial] at h
    cases ha : applyLiteral f ⟨v, !b⟩ with
    | none => rw [ha] at h; cases h
    | some f1 =>
      rw [ha] at h
      have hvM : lookupVar M v = some b := hag (v, b) (List.mem_cons_self _ _)
      have hlit : lookupVar M (Literal.mk v (!b)).var = some (!(Literal.mk v (!b)).negated) := by
        simpa using hvM
      exact applyLiteral_sound ha hlit
        (ih h M (fun p' hp' => hag p' (List.mem_cons_of_mem _ hp')) hev)

/-- Soundness of the fuelled DPLL run: a returned model is well formed,
extends the starting model, and satisfies the input formula. -/
theorem dpllF_sound : ∀ (fuel : Nat) (f : CNF) (m : Model) (M : Model),
    ModelWF m → dpllF fuel f m = some (some M) →
    ModelWF M ∧ (∃ t, M = m ++ t) ∧ evaluate_cnf f M = true := by
  intro fuel
  induction fuel using Nat.strong_induction_on with
  | _ fuel ih =>
    intro f m M hwf h
    rw [dpllF] at h
    cases hA : applyPartial f m with
    | none =>
      simp only [hA] at h
      simp at h
    | some f1 =>
      simp only [hA] at h
      by_cases h1 : f1 = []
      · rw [if_pos h1] at h
        injection h with h
        injection h with h2
        subst h2
        refine ⟨hwf, ⟨[], by simp⟩, ?_⟩
        refine applyPartial_sound hA m (fun p hp => ModelWF_lookup hwf hp) ?_
        rw [h1]
        rfl
      · rw [if_neg h1] at h
        by_cases h2 : (f1.any fun c => c.isEmpty) = true
        · rw [if_pos h2] at h
          simp at h
        · rw [if_neg h2] at h
          cases hS : simpLoop f1 m with
          | none =>
            simp only [hS] at h
            simp at h
          | some p =>
            obtain ⟨f2, m2⟩ := p
            simp only [hS] at h
            obtain ⟨hg2, hwf2, hev2⟩ := simpLoop_sound hS
            have hwfm2 : ModelWF m2 := hwf2 hwf
            by_cases h3 : f2 = []
            · rw [if_pos h3] at h
              injection h with h
              injection h with h4
              subst h4
              refine ⟨hwfm2, hg2, ?_⟩
              refine applyPartial_sound hA m2 (agree_of_growth hwfm2 hg2) ?_
              refine hev2 m2 (fun p hp => ModelWF_lookup hwfm2 hp) ?_
              rw [h3]
              rfl
            · rw [if_neg h3] at h
              cases hC : chooseBranchLiteral f2 m2 with
              | none =>
                simp only [hC] at h
                simp at h
              | some lit =>
                simp only [hC] at h
                cases fuel with
                | zero =>
                  have h' : (none : Option (Option Model)) = some (some M) := h
                  cases h'
                | succ n =>
                  have hfinish : ∀ (bl : Literal) (mX : Model) (fX : CNF),
                      assign m2 bl = some mX → applyLiteral f2 bl = some fX →
                      dpllF n fX mX = some (some M) →
                      ModelWF M ∧ (∃ t, M = m ++ t) ∧ evaluate_cnf f M = true := by
                    intro bl mX fX haX hbX hdX
                    obtain ⟨hgX, hlkX, hwfX⟩ := assign_spec haX
                    obtain ⟨hwfM, hgM, hevM⟩ :=
                      ih n (Nat.lt_succ_self n) fX mX M (hwfX hwfm2) hdX
                    have hgm2M : ∃ t, M = m2 ++ t := growth_trans hgX hgM
                    have hgmM : ∃ t, M = m ++ t := growth_trans hg2 hgm2M
                    refine ⟨hwfM, hgmM, ?_⟩
                    have hlitM : lookupVar M bl.var = some (!bl.negated) := by
                      obtain ⟨t, rfl⟩ := hgM
                      exact lookupVar_append_left hlkX
                    have hevf2 : evaluate_cnf f2 M = true :=
                      applyLiteral_sound hbX hlitM hevM
                    have hevf1 : evaluate_cnf f1 M = true :=
                      hev2 M (agree_of_growth hwfM hgm2M) hevf2
                    exact applyPartial_sound hA M (agree_of_growth hwfM hgmM) hevf1
                  have hrest : (match assign m2 lit.negate with
                      | none => some none
                      | some mB =>
                        match applyLiteral f2 lit.negate with
                        | none => some none
                        | some fB => dpllF n fB mB) = some (some M) →
                      ModelWF M ∧ (∃ t, M = m ++ t) ∧ evaluate_cnf f M = true := by
                    intro hr
                    cases haB : assign m2 lit.negate with
                    | none =>
                      simp only [haB] at hr
                      simp at hr
                    | some mB =>
                      simp only [haB] at hr
                      cases hbB : applyLiteral f2 lit.negate with
                      | none =>
                        simp only [hbB] at hr
                        simp at hr
                      | some fB =>
                        simp only [hbB] at hr
                        exact hfinish lit.negate mB fB haB hbB hr
                  cases haA : assign m2 lit with
                  | none =>
                    simp only [haA] at h
                    exact hrest h
                  | some mA =>
                    simp only [haA] at h
                    cases hbA : applyLiteral f2 lit with
                    | none =>
                      simp only [hbA] at h
                      exact hrest h
                    | some fA =>
                      simp only [hbA] at h
                      cases hdA : dpllF n fA mA with
                      | none =>
                        simp only [hdA] at h
                        simp at h
                      | some r =>
                        simp only [hdA] at h
                        cases r with
                        | none => exact hrest h
                        | some rr =>
                          have h' : some (some rr) = some (some M) := h
                          injection h' with h'
                          injection h' with h'
                          subst h'
                          exact hfinish lit mA fA haA hbA hdA

/-- C1: soundness of the solver — whenever `dpll` returns a model
(starting from any duplicate-free partial model, in particular the `solve`
entry point's empty default), `evaluate_cnf` of the input formula under
the returned model is `true`. -/
theorem C1_dpll_sound (f : CNF) (m M : Model) (hwf : ModelWF m)
    (h : dpll f m = some M) : evaluate_cnf f M = true := by
  have hrun := dpllF_run f m
  rw [h] at hrun
  exact (dpllF_sound _ f m M hwf hrun).2.2

/-- Witness for C1 at a concrete satisfiable formula. -/
theorem C1_witness :
    ModelWF [] ∧
    dpll [[(⟨1, false⟩ : Literal), ⟨2, true⟩]] [] = some [(1, true), (2, false)] ∧
    evaluate_cnf [[(⟨1, false⟩ : Literal), ⟨2, true⟩]] [(1, true), (2, false)] = true := by
  have e1 : unitPropagate [[(⟨1, false⟩ : Literal), ⟨2, true⟩]] [] =
      some ([[(⟨1, false⟩ : Literal), ⟨2, true⟩]], []) :=
    unitPropagate_done (by decide)
  have e2 : pureLiterals [[(⟨1, false⟩ : Literal), ⟨2, true⟩]] [] =
      [⟨1, false⟩, ⟨2, true⟩] := by decide
  have e3 : applyPures [(⟨1, false⟩ : Literal), ⟨2, true⟩]
      [[(⟨1, false⟩ : Literal), ⟨2, true⟩]] [] = some ([], [(1, true), (2, false)]) := by
    decide
  have e5 : eliminatePureLiterals [[(⟨1, false⟩ : Literal), ⟨2, true⟩]] [] =
      some ([], [(1, true), (2, false)]) :=
    (eliminatePureLiterals_step e2 e3).trans (eliminatePureLiterals_done (by decide))
  have e6 : simpLoop [[(⟨1, false⟩ : Literal), ⟨2, true⟩]] [] =
      some ([], [(1, true), (2, false)]) :=
    simpLoop_finish e1 e5 (Or.inl rfl)
  have heval : dpll [[(⟨1, false⟩ : Literal), ⟨2, true⟩]] [] =
      some [(1, true), (2, false)] := by
    rw [dpll]
    rw [show (varsOf [[(⟨1, false⟩ : Literal), ⟨2, true⟩]]).card = 2 from by decide]
    rw [dpllF]
    rw [show applyPartial [[(⟨1, false⟩ : Literal), ⟨2, true⟩]] [] =
      some [[(⟨1, false⟩ : Literal), ⟨2, true⟩]] from rfl]
    simp only [e6]
    simp
  have hwfnil : ModelWF [] := List.nodup_nil
  exact ⟨hwfnil, heval, C1_dpll_sound _ [] _ hwfnil heval⟩

/-! Completeness: a total assignment satisfying the formula in the
truth-table sense guarantees the solver does not answer UNSAT. -/

/-- Truth of a literal under a total assignment. -/
def litTrueG (g : Nat → Bool) (l : Literal) : Bool :=
  if l.negated then !(g l.var) else g l.var

/-- "Every clause contains a true literal" under a total assignment:
the brute-force notion of satisfaction the spec enumerates. -/
def satisfiesG (g : Nat → Bool) (f : CNF) : Bool :=
  f.all (fun c => c.any (litTrueG g))

/-- The total assignment agrees with every entry of the partial model. -/
def ConsistentG (g : Nat → Bool) (m : Model) : Prop := ∀ p ∈ m, g p.1 = p.2

theorem litTrueG_negate {g : Nat → Bool} {l : Literal} :
    litTrueG g l.negate = !(litTrueG g l) := by
  obtain ⟨v, n⟩ := l
  cases n <;> simp [litTrueG, Literal.negate]

theorem satisfiesG_cons {g : Nat → Bool} {c : Clause} {f : CNF} :
    satisfiesG g (c :: f) = true ↔
      c.any (litTrueG g) = true ∧ satisfiesG g f = true := by
  simp [satisfiesG]

/-- Applying a literal the assignment makes true preserves truth-table
satisfaction and cannot conflict. -/
theorem applyLiteral_preserve {g : Nat → Bool} {l : Literal} :
    ∀ {f : CNF}, litTrueG g l = true → satisfiesG g f = true →
    ∃ f', applyLiteral f l = some f' ∧ satisfiesG g f' = true := by
  intro f
  induction f with
  | nil => intro _ _; exact ⟨[], rfl, rfl⟩
  | cons c rest ih =>
    intro hl hsat
    rw [satisfiesG_cons] at hsat
    obtain ⟨hc, hrest⟩ := hsat
    obtain ⟨f', hf', hsat'⟩ := ih hl hrest
    simp only [applyLiteral]
    by_cases hin : l ∈ c
    · rw [if_pos hin]
      exact ⟨f', hf', hsat'⟩
    · rw [if_neg hin]
      by_cases hneg : l.negate ∈ c
      · rw [if_pos hneg]
        obtain ⟨x, hx, hxt⟩ := List.any_eq_true.mp hc
        have hxne : x ≠ l.negate := by
          intro he
          subst he
          rw [litTrueG_negate, hl] at hxt
          cases hxt
        have hxred : x ∈ c.filter (fun y => y ≠ l.negate) :=
          List.mem_filter.mpr ⟨hx, by simp [hxne]⟩
        rw [if_neg (by intro he; rw [he] at hxred; simp at hxred)]
        rw [hf']
        refine ⟨_, rfl, ?_⟩
        rw [satisfiesG_cons]
        exact ⟨List.any_eq_true.mpr ⟨x, hxred, hxt⟩, hsat'⟩
      · rw [if_neg hneg, hf']
        refine ⟨_, rfl, ?_⟩
        rw [satisfiesG_cons]
        exact ⟨hc, hsat'⟩

/-- Assigning a literal the assignment makes true cannot contradict the
model and keeps the model consistent with the assignment. -/
theorem assign_preserve {g : Nat → Bool} {m : Model} {l : Literal}
    (hcons : ConsistentG g m) (hl : litTrueG g l = true) :
    ∃ m', assign m l = some m' ∧ ConsistentG g m' := by
  have hval : g l.var = !l.negated := by
    cases hn : l.negated <;> simp [litTrueG, hn] at hl <;> simp [hl]
  cases hlk : lookupVar m l.var with
  | none =>
    refine ⟨_, assign_fresh hlk, ?_⟩
    intro p hp
    rcases List.mem_append.mp hp with hp | hp
    · exact hcons p hp
    · simp only [List.mem_singleton] at hp
      subst hp
      exact hval
  | some existing =>
    have hex : existing = !l.negated := by
      have := hcons _ (lookupVar_some_mem hlk)
      simp only at this
      rw [← this, hval]
    refine ⟨m, ?_, hcons⟩
    simp [assign, hlk, hex]

/-- Unit propagation cannot fail on a truth-table-satisfiable formula,
and it preserves satisfaction and consistency. -/
theorem unitPropagate_complete {f : CNF} {m : Model} :
    ∀ {g : Nat → Bool}, ConsistentG g m → satisfiesG g f = true →
    ∃ f' m', unitPropagate f m = some (f', m') ∧ ConsistentG g m' ∧
      satisfiesG g f' = true := by
  induction f, m using unitPropagate.induct with
  | case1 f m hu =>
    intro g hcons hsat
    exact ⟨f, m, unitPropagate_done hu, hcons, hsat⟩
  | case2 f m u hu ha =>
    intro g hcons hsat
    have huT : litTrueG g u = true := by
      have hmem := findUnitLiteral_mem hu
      have := List.all_eq_true.mp hsat _ hmem
      simpa using this
    obtain ⟨m', ha', _⟩ := assign_preserve hcons huT
    rw [ha] at ha'
    cases ha'
  | case3 f m u hu m1 ha hb =>
    intro g hcons hsat
    have huT : litTrueG g u = true := by
      have hmem := findUnitLiteral_mem hu
      have := List.all_eq_true.mp hsat _ hmem
      simpa using this
    obtain ⟨f', hb', _⟩ := applyLiteral_preserve huT hsat
    rw [hb] at hb'
    cases hb'
  | case4 f m u hu m1 ha f1 hb ih =>
    intro g hcons hsat
    have huT : litTrueG g u = true := by
      have hmem := findUnitLiteral_mem hu
      have := List.all_eq_true.mp hsat _ hmem
      simpa using this
    obtain ⟨m1', ha', hcons1⟩ := assign_preserve hcons huT
    rw [ha] at ha'
    injection ha' with ha'
    subst ha'
    obtain ⟨f1', hb', hsat1⟩ := applyLiteral_preserve huT hsat
    rw [hb] at hb'
    injection hb' with hb'
    subst hb'
    obtain ⟨f', m', h', hcons', hsat'⟩ := ih hcons1 hsat1
    exact ⟨f', m', (unitPropagate_step hu ha hb).trans h', hcons', hsat'⟩

/-- Pointwise update of a total assignment. -/
def updateG (g : Nat → Bool) (v : Nat) (b : Bool) : Nat → Bool :=
  fun x => if x = v then b else g x

theorem litTrueG_updateG_of_ne {g : Nat → Bool} {v : Nat} {b : Bool}
    {l : Literal} (h : l.var ≠ v) : litTrueG (updateG g v b) l = litTrueG g l := by
  simp [litTrueG, updateG, h]

/-- Flipping a pure literal's variable to the pure polarity preserves
truth-table satisfaction (the complement occurs nowhere). -/
theorem satisfiesG_flip {g : Nat → Bool} {f : CNF} {p : Literal}
    (hneg : ∀ c ∈ f, p.negate ∉ c) (hsat : satisfiesG g f = true) :
    satisfiesG (updateG g p.var (!p.negated)) f = true := by
  rw [satisfiesG, List.all_eq_true] at hsat ⊢
  intro c hc
  obtain ⟨x, hx, hxt⟩ := List.any_eq_true.mp (hsat c hc)
  by_cases hv : x.var = p.var
  · rcases eq_or_eq_negate_of_var_eq hv with rfl | rfl
    · refine List.any_eq_true.mpr ⟨x, hx, ?_⟩
      cases hn : x.negated <;> simp [litTrueG, updateG, hn]
    · exact absurd hx (hneg c hc)
  · exact List.any_eq_true.mpr ⟨x, hx, by rw [litTrueG_updateG_of_ne hv]; exact hxt⟩

theorem consistentG_updateG {g : Nat → Bool} {m : Model} {v : Nat} {b : Bool}
    (hcons : ConsistentG g m) (hun : lookupVar m v = none) :
    ConsistentG (updateG g v b) m := by
  intro p hp
  have hne : p.1 ≠ v := by
    intro he
    refine (lookupVar_none_iff.mp hun) ?_
    rw [← he]
    exact List.mem_map.mpr ⟨p, hp, rfl⟩
  simp only [updateG, if_neg hne]
  exact hcons p hp

theorem litTrueG_updateG_self {g : Nat → Bool} {p : Literal} :
    litTrueG (updateG g p.var (!p.negated)) p = true := by
  cases hn : p.negated <;> simp [litTrueG, updateG, hn]

/-- The pure-literal inner loop preserves satisfiability: flipping each
pure variable to its pure polarity keeps the formula satisfied. -/
theorem applyPures_complete : ∀ (lits : List Literal) (f : CNF) (m : Model)
    (g : Nat → Bool),
    (∀ l ∈ lits, ∀ c ∈ f, l.negate ∉ c) →
    (∀ l ∈ lits, lookupVar m l.var = none) →
    List.Pairwise (fun a b : Literal => a.var ≠ b.var) lits →
    ConsistentG g m → satisfiesG g f = true →
    ∃ f' m' g', applyPures lits f m = some (f', m') ∧ ConsistentG g' m' ∧
      satisfiesG g' f' = true := by
  intro lits
  induction lits with
  | nil =>
    intro f m g _ _ _ hc hs
    exact ⟨f, m, g, rfl, hc, hs⟩
  | cons p rest ih =>
    intro f m g hneg hun hpw hcons hsat
    have hnegp := hneg p (List.mem_cons_self _ _)
    have hg1sat : satisfiesG (updateG g p.var (!p.negated)) f = true :=
      satisfiesG_flip hnegp hsat
    have hg1cons : ConsistentG (updateG g p.var (!p.negated)) m :=
      consistentG_updateG hcons (hun p (List.mem_cons_self _ _))
    have hfresh := assign_fresh (hun p (List.mem_cons_self _ _))
    obtain ⟨f1, hb, hsat1⟩ := applyLiteral_preserve litTrueG_updateG_self hg1sat
    have hcons1 : ConsistentG (updateG g p.var (!p.negated))
        (m ++ [(p.var, !p.negated)]) := by
      intro q hq
      rcases List.mem_append.mp hq with hq | hq
      · exact hg1cons q hq
      · simp only [List.mem_singleton] at hq
        subst hq
        simp [updateG]
    have hsub := applyLiteral_clauseSub hb
    have hneg' : ∀ l ∈ rest, ∀ c ∈ f1, l.negate ∉ c := by
      intro l hl c hc hmem
      obtain ⟨cc, hcc, hs⟩ := hsub c hc
      exact hneg l (List.mem_cons_of_mem _ hl) cc hcc (hs _ hmem)
    have hun' : ∀ l ∈ rest, lookupVar (m ++ [(p.var, !p.negated)]) l.var = none := by
      intro l hl
      rw [lookupVar_append, hun l (List.mem_cons_of_mem _ hl)]
      have hvne : p.var ≠ l.var := (List.pairwise_cons.mp hpw).1 l hl
      simp [lookupVar, hvne]
    obtain ⟨f', m', g', happ, hc', hs'⟩ :=
      ih f1 _ _ hneg' hun' (List.pairwise_cons.mp hpw).2 hcons1 hsat1
    refine ⟨f', m', g', ?_, hc', hs'⟩
    simp only [applyPures, hfresh, hb, happ]

/-- Pure-literal elimination preserves satisfiability (with a possibly
updated total assignment). -/
theorem eliminatePureLiterals_complete {f : CNF} {m : Model} :
    ∀ {g : Nat → Bool}, ConsistentG g m → satisfiesG g f = true →
    ∃ f' m' g', eliminatePureLiterals f m = some (f', m') ∧ ConsistentG g' m' ∧
      satisfiesG g' f' = true := by
  induction f, m using eliminatePureLiterals.induct with
  | case1 f m hp =>
    intro g hcons hsat
    exact ⟨f, m, g, eliminatePureLiterals_done hp, hcons, hsat⟩
  | case2 f m p ps hp ha =>
    intro g hcons hsat
    obtain ⟨f', m', happ, _⟩ :=
      applyPures_ok (p :: ps) f m
        (fun l hl => pureLiterals_negate_not_mem (by rw [hp]; exact hl))
        (fun l hl => pureLiterals_unassigned (by rw [hp]; exact hl))
        (hp ▸ pureLiterals_pairwise)
    rw [ha] at happ
    cases happ
  | case3 f m p ps hp f1 m1 ha ih =>
    intro g hcons hsat
    obtain ⟨f1', m1', g', happ, hc', hs'⟩ :=
      applyPures_complete (p :: ps) f m g
        (fun l hl => pureLiterals_negate_not_mem (by rw [hp]; exact hl))
        (fun l hl => pureLiterals_unassigned (by rw [hp]; exact hl))
        (hp ▸ pureLiterals_pairwise) hcons hsat
    rw [ha] at happ
    injection happ with happ
    injection happ with h1 h2
    subst h1
    subst h2
    obtain ⟨f', m', g'', h', hc'', hs''⟩ := ih hc' hs'
    exact ⟨f', m', g'', (eliminatePureLiterals_step hp ha).trans h', hc'', hs''⟩

/-- The simplification loop preserves satisfiability. -/
theorem simpLoop_complete {f : CNF} {m : Model} :
    ∀ {g : Nat → Bool}, ConsistentG g m → satisfiesG g f = true →
    ∃ f' m' g', simpLoop f m = some (f', m') ∧ ConsistentG g' m' ∧
      satisfiesG g' f' = true := by
  induction f, m using simpLoop.induct with
  | case1 f m hu =>
    intro g hcons hsat
    obtain ⟨f', m', hu', _, _⟩ := unitPropagate_complete hcons hsat
    rw [hu] at hu'
    cases hu'
  | case2 f m f1 m1 hu he =>
    intro g hcons hsat
    have := eliminatePureLiterals_isSome f1 m1
    rw [he] at this
    cases this
  | case3 f m f1 m1 hu m2 he =>
    intro g hcons hsat
    obtain ⟨f1', m1', hu', hc1, hs1⟩ := unitPropagate_complete hcons hsat
    rw [hu] at hu'
    injection hu' with hu'
    injection hu' with h1 h2
    subst h1
    subst h2
    obtain ⟨f2', m2', g', he', hc2, hs2⟩ := eliminatePureLiterals_complete hc1 hs1
    rw [he] at he'
    injection he' with he'
    injection he' with h3 h4
    subst h3
    subst h4
    exact ⟨[], m2, g', simpLoop_finish hu he (Or.inl rfl), hc2, hs2⟩
  | case4 m f1 m1 f2 m2 he h0 hu =>
    intro g hcons hsat
    obtain ⟨f1', m1', hu', hc1, hs1⟩ := unitPropagate_complete hcons hsat
    rw [hu] at hu'
    injection hu' with hu'
    injection hu' with h1 h2
    subst h1
    subst h2
    obtain ⟨f2', m2', g', he', hc2, hs2⟩ := eliminatePureLiterals_complete hc1 hs1
    rw [he] at he'
    injection he' with he'
    injection he' with h3 h4
    subst h3
    subst h4
    exact ⟨f2, m2, g', simpLoop_finish hu he (Or.inr rfl), hc2, hs2⟩
  | case5 f m f1 m1 hu f2 m2 he h0 h1 ih =>
    intro g hcons hsat
    obtain ⟨f1', m1', hu', hc1, hs1⟩ := unitPropagate_complete hcons hsat
    rw [hu] at hu'
    injection hu' with hu'
    injection hu' with h2 h3
    subst h2
    subst h3
    obtain ⟨f2', m2', g', he', hc2, hs2⟩ := eliminatePureLiterals_complete hc1 hs1
    rw [he] at he'
    injection he' with he'
    injection he' with h4 h5
    subst h4
    subst h5
    obtain ⟨f', m', g'', h', hc'', hs''⟩ := ih hc2 hs2
    exact ⟨f', m', g'', (simpLoop_step hu he h0 h1).trans h', hc'', hs''⟩

/-- The upfront partial-model application cannot fail on a formula a
consistent total assignment satisfies. -/
theorem applyPartial_complete {m : Model} : ∀ {f : CNF} {g : Nat → Bool},
    ConsistentG g m → satisfiesG g f = true →
    ∃ f1, applyPartial f m = some f1 ∧ satisfiesG g f1 = true := by
  induction m with
  | nil =>
    intro f g _ hs
    exact ⟨f, rfl, hs⟩
  | cons p rest ih =>
    intro f g hcons hsat
    obtain ⟨v, b⟩ := p
    have hgv : g v = b := hcons (v, b) (List.mem_cons_self _ _)
    have hl : litTrueG g ⟨v, !b⟩ = true := by
      cases b <;> simp [litTrueG, hgv]
    obtain ⟨f1, hb, hs1⟩ := applyLiteral_preserve hl hsat
    obtain ⟨f2, hap, hs2⟩ := ih (fun q hq => hcons q (List.mem_cons_of_mem _ hq)) hs1
    refine ⟨f2, ?_, hs2⟩
    simp only [applyPartial, hb, hap]

/-- A satisfied formula has no empty clause. -/
theorem satisfiesG_no_empty {g : Nat → Bool} {f : CNF}
    (h : satisfiesG g f = true) : (f.any fun c => c.isEmpty) = false := by
  by_contra hne
  rw [Bool.not_eq_false, List.any_eq_true] at hne
  obtain ⟨c, hc, hce⟩ := hne
  have hsat := List.all_eq_true.mp h c hc
  cases c with
  | nil => simp at hsat
  | cons x xs => simp [List.isEmpty] at hce

/-- With a nonempty formula free of empty clauses, the branch-literal
choice always succeeds (the `ValueError` fallbacks of the Python `min`
calls are unreachable). -/
theorem chooseBranchLiteral_isSome {f : CNF} {m : Model} (hne : f ≠ [])
    (hno : [] ∉ f) : (chooseBranchLiteral f m).isSome = true := by
  rw [chooseBranchLiteral]
  cases hcands : f.filter (hasUnassigned m) with
  | nil =>
    have hgoal : (match minByLen f with
        | none => none
        | some c => minLit c).isSome = true := by
      cases f with
      | nil => exact absurd rfl hne
      | cons c0 cs =>
        simp only [minByLen]
        obtain ⟨c, hc⟩ :
            ∃ c, cs.foldl (fun a d => if d.length < a.length then d else a) c0 = c :=
          ⟨_, rfl⟩
        rw [hc]
        have hcmem : c ∈ c0 :: cs := minByLen_mem (by simp only [minByLen, hc])
        cases hcc : c with
        | nil =>
          rw [hcc] at hcmem
          exact absurd hcmem hno
        | cons x xs => simp [minLit]
    exact hgoal
  | cons c0 cs =>
    have hgoal : (match minByLen (c0 :: cs) with
        | none => none
        | some c => minLit (c.filter (fun l => (lookupVar m l.var).isNone))).isSome
        = true := by
      simp only [minByLen]
      obtain ⟨c, hc⟩ :
          ∃ c, cs.foldl (fun a d => if d.length < a.length then d else a) c0 = c :=
        ⟨_, rfl⟩
      rw [hc]
      have hcmem : c ∈ c0 :: cs := minByLen_mem (by simp only [minByLen, hc])
      have hcfil : c ∈ f.filter (hasUnassigned m) := by
        rw [hcands]
        exact hcmem
      have hcand : hasUnassigned m c = true := (List.mem_filter.mp hcfil).2
      obtain ⟨l0, hl0, hl0un⟩ :
          ∃ l0 ∈ c, (lookupVar m l0.var).isNone = true := by
        simpa [hasUnassigned, List.any_eq_true] using hcand
      have hmemfil : l0 ∈ c.filter (fun l => (lookupVar m l.var).isNone) :=
        List.mem_filter.mpr ⟨hl0, hl0un⟩
      cases hfc : c.filter (fun l => (lookupVar m l.var).isNone) with
      | nil =>
        rw [hfc] at hmemfil
        simp at hmemfil
      | cons u0 us => simp [minLit]
    exact hgoal

/-- Completeness of the fuelled DPLL run: on a truth-table-satisfiable
formula it never completes with the UNSAT answer. -/
theorem dpllF_complete : ∀ (fuel : Nat) (f : CNF) (m : Model) (g : Nat → Bool),
    ConsistentG g m → satisfiesG g f = true → dpllF fuel f m ≠ some none := by
  intro fuel
  induction fuel using Nat.strong_induction_on with
  | _ fuel ih =>
    intro f m g hcons hsat h
    rw [dpllF] at h
    obtain ⟨f1, hA, hsat1⟩ := applyPartial_complete hcons hsat
    simp only [hA] at h
    by_cases h1 : f1 = []
    · rw [if_pos h1] at h
      simp at h
    · rw [if_neg h1] at h
      have h2 : (f1.any fun c => c.isEmpty) = false := satisfiesG_no_empty hsat1
      rw [if_neg (by simp [h2])] at h
      obtain ⟨f2, m2, g2, hS, hcons2, hsat2⟩ := simpLoop_complete hcons hsat1
      simp only [hS] at h
      by_cases h3 : f2 = []
      · rw [if_pos h3] at h
        simp at h
      · rw [if_neg h3] at h
        have hno2 : [] ∉ f2 := by
          intro hmem
          have := List.all_eq_true.mp hsat2 _ hmem
          simp at this
        have hcsome := chooseBranchLiteral_isSome (m := m2) h3 hno2
        cases hC : chooseBranchLiteral f2 m2 with
        | none =>
          rw [hC] at hcsome
          simp at hcsome
        | some lit =>
          simp only [hC] at h
          cases fuel with
          | zero =>
            have h' : (none : Option (Option Model)) = some none := h
            cases h'
          | succ n =>
            have harm : ∀ (bl : Literal), litTrueG g2 bl = true →
                (match assign m2 bl with
                  | none => some none
                  | some mB =>
                    match applyLiteral f2 bl with
                    | none => some none
                    | some fB => dpllF n fB mB) ≠ some none := by
              intro bl hbl harm'
              obtain ⟨mB, haB, hconsB⟩ := assign_preserve hcons2 hbl
              obtain ⟨fB, hbB, hsatB⟩ := applyLiteral_preserve hbl hsat2
              simp only [haB, hbB] at harm'
              exact ih n (Nat.lt_succ_self n) fB mB g2 hconsB hsatB harm'
            by_cases hlitT : litTrueG g2 lit = true
            · obtain ⟨mA, haA, hconsA⟩ := assign_preserve hcons2 hlitT
              obtain ⟨fA, hbA, hsatA⟩ := applyLiteral_preserve hlitT hsat2
              simp only [haA, hbA] at h
              cases hdA : dpllF n fA mA with
              | none =>
                simp only [hdA] at h
                simp at h
              | some r =>
                cases r with
                | some rr =>
                  simp only [hdA] at h
                  simp at h
                | none => exact ih n (Nat.lt_succ_self n) fA mA g2 hconsA hsatA hdA
            · have hlitF : litTrueG g2 lit = false := by
                rw [Bool.not_eq_true] at hlitT
                exact hlitT
              have hlitN : litTrueG g2 lit.negate = true := by
                rw [litTrueG_negate, hlitF]
                rfl
              cases haA : assign m2 lit with
              | none =>
                simp only [haA] at h
                exact harm lit.negate hlitN h
              | some mA =>
                simp only [haA] at h
                cases hbA : applyLiteral f2 lit with
                | none =>
                  simp only [hbA] at h
                  exact harm lit.negate hlitN h
                | some fA =>
                  simp only [hbA] at h
                  cases hdA : dpllF n fA mA with
                  | none =>
                    simp only [hdA] at h
                    simp at h
                  | some r =>
                    simp only [hdA] at h
                    cases r with
                    | some rr => simp at h
                    | none => exact harm lit.negate hlitN h

/-- A model satisfying the formula in `evaluate_cnf`'s sense induces a
total assignment satisfying it in the truth-table sense. -/
theorem evaluate_to_satisfiesG {f : CNF} {M : Model}
    (h : evaluate_cnf f M = true) :
    satisfiesG (fun v => (lookupVar M v).getD false) f = true := by
  rw [evaluate_cnf, List.all_eq_true] at h
  rw [satisfiesG, List.all_eq_true]
  intro c hc
  obtain ⟨x, hx, hxe⟩ := List.any_eq_true.mp (h c hc)
  refine List.any_eq_true.mpr ⟨x, hx, ?_⟩
  simp only [litEval] at hxe
  cases hlk : lookupVar M x.var with
  | none =>
    rw [hlk] at hxe
    cases hxe
  | some val =>
    rw [hlk] at hxe
    simp only [litTrueG, hlk, Option.getD_some]
    exact hxe

/-- `is_satisfiable` agrees with brute-force truth-table satisfiability. -/
theorem isSat_iff_exists (f : CNF) :
    is_satisfiable f = true ↔ ∃ g : Nat → Bool, satisfiesG g f = true := by
  constructor
  · intro h
    rw [is_satisfiable] at h
    cases hd : dpll f [] with
    | none =>
      rw [hd] at h
      cases h
    | some M =>
      have hwf : ModelWF [] := List.nodup_nil
      have hrun := dpllF_run f []
      rw [hd] at hrun
      have hev := (dpllF_sound _ f [] M hwf hrun).2.2
      exact ⟨_, evaluate_to_satisfiesG hev⟩
  · rintro ⟨g, hg⟩
    have hcons : ConsistentG g [] := fun p hp => by simp at hp
    have hne := dpllF_complete ((varsOf f).card) f [] g hcons hg
    have hrun := dpllF_run f []
    rw [is_satisfiable]
    cases hd : dpll f [] with
    | some M => rfl
    | none =>
      rw [hd] at hrun
      exact absurd hrun hne

/-- C2: on any formula (in particular any formula with at most 10
distinct variables, as the spec's property-based test states it),
`is_satisfiable` agrees with exhaustively trying every total assignment:
it returns `true` iff some total assignment of the variables makes every
clause contain a true literal. -/
theorem C2_is_satisfiable_brute_force (f : CNF) (h : (varsOf f).card ≤ 10) :
    is_satisfiable f = true ↔ ∃ g : Nat → Bool, satisfiesG g f = true :=
  isSat_iff_exists f

/-- Witness for C2 at a concrete two-variable formula. -/
theorem C2_witness :
    (varsOf [[(⟨1, false⟩ : Literal), ⟨2, true⟩]]).card ≤ 10 ∧
    (is_satisfiable [[(⟨1, false⟩ : Literal), ⟨2, true⟩]] = true ↔
      ∃ g : Nat → Bool, satisfiesG g [[(⟨1, false⟩ : Literal), ⟨2, true⟩]] = true) :=
  ⟨by decide, C2_is_satisfiable_brute_force _ (by decide)⟩

/-! Clause construction (`make_clause`, lines 91-93; `make_cnf`, lines
96-103).  A Python frozenset is represented canonically as the sorted
duplicate-free list of its elements, so `make_clause` is insertion sort
with deduplication; `make_cnf` normalizes each clause (the inputs here
are already `Literal`s, on which `parse_literal` is the identity,
implementation.py lines 67-68). -/

/-- Ordered duplicate-free insertion, building the canonical (sorted)
list representation of a `frozenset[Literal]`. -/
def insLit (l : Literal) : Clause → Clause
  | [] => [l]
  | x :: xs =>
    if litLT l x then l :: x :: xs
    else if l = x then x :: xs
    else x :: insLit l xs

/-- Embeds `make_clause`: the frozenset of the listed literals. -/
def make_clause (ls : List Literal) : Clause := ls.foldr insLit []

/-- Embeds `make_cnf` on lists of literal listings. -/
def make_cnf (cs : List (List Literal)) : CNF := cs.map make_clause

theorem litLT_irrefl (a : Literal) : litLT a a = false := by
  simp [litLT]

theorem mem_insLit {x l : Literal} : ∀ {c : Clause},
    x ∈ insLit l c ↔ x = l ∨ x ∈ c := by
  intro c
  induction c with
  | nil => simp [insLit]
  | cons y ys ih =>
    simp only [insLit]
    split
    · simp
    · split
      · rename_i hly
        subst hly
        simp only [List.mem_cons]
        constructor
        · exact fun h => Or.inr h
        · rintro (rfl | h)
          · exact Or.inl rfl
          · exact h
      · simp only [List.mem_cons, ih]
        constructor
        · rintro (rfl | h)
          · exact Or.inr (Or.inl rfl)
          · rcases h with rfl | h
            · exact Or.inl rfl
            · exact Or.inr (Or.inr h)
        · rintro (rfl | rfl | h)
          · exact Or.inr (Or.inl rfl)
          · exact Or.inl rfl
          · exact Or.inr (Or.inr h)

/-- Canonical sortedness: strictly increasing in the literal order. -/
def ClauseSorted (c : Clause) : Prop :=
  List.Pairwise (fun a b => litLT a b = true) c

theorem insLit_sorted {l : Literal} : ∀ {c : Clause}, ClauseSorted c →
    ClauseSorted (insLit l c) := by
  intro c
  induction c with
  | nil => intro _; simp [insLit, ClauseSorted]
  | cons x xs ih =>
    intro hs
    have hx := List.pairwise_cons.mp hs
    simp only [insLit]
    split
    · rename_i hlx
      refine List.Pairwise.cons ?_ hs
      intro y hy
      rcases List.mem_cons.mp hy with rfl | hm
      · exact hlx
      · exact litLT_trans hlx (hx.1 y hm)
    · split
      · exact hs
      · rename_i hnlt hne
        have hxl : litLT x l = true := by
          have hf : litLT l x = false := by
            revert hnlt
            cases litLT l x <;> simp
          rcases litLT_total hf with heq | h
          · exact absurd heq hne
          · exact h
        refine List.Pairwise.cons ?_ (ih hx.2)
        intro y hy
        rcases mem_insLit.mp hy with rfl | hm
        · exact hxl
        · exact hx.1 y hm

/-- Two sorted duplicate-free clauses with the same members are equal:
the canonical representation is unique. -/
theorem sorted_eq_of_mem_iff : ∀ {c d : Clause}, ClauseSorted c →
    ClauseSorted d → (∀ x, x ∈ c ↔ x ∈ d) → c = d := by
  intro c
  induction c with
  | nil =>
    intro d _ _ hiff
    cases d with
    | nil => rfl
    | cons y ys => exact absurd ((hiff y).mpr (List.mem_cons_self _ _)) (by simp)
  | cons x xs ih =>
    intro d hc hd hiff
    cases d with
    | nil => exact absurd ((hiff x).mp (List.mem_cons_self _ _)) (by simp)
    | cons y ys =>
      have hcx := List.pairwise_cons.mp hc
      have hdy := List.pairwise_cons.mp hd
      have hxy : x = y := by
        rcases List.mem_cons.mp ((hiff x).mp (List.mem_cons_self _ _)) with h | hxys
        · exact h
        · rcases List.mem_cons.mp ((hiff y).mpr (List.mem_cons_self _ _)) with h | hyxs
          · exact h.symm
          · have h1 : litLT x y = true := hcx.1 y hyxs
            have h2 : litLT y x = true := hdy.1 x hxys
            have := litLT_trans h1 h2
            rw [litLT_irrefl] at this
            cases this
      subst hxy
      have htail : ∀ z, z ∈ xs ↔ z ∈ ys := by
        intro z
        constructor
        · intro hz
          have hzx : litLT x z = true := hcx.1 z hz
          rcases List.mem_cons.mp ((hiff z).mp (List.mem_cons_of_mem _ hz)) with rfl | h
          · rw [litLT_irrefl] at hzx
            cases hzx
          · exact h
        · intro hz
          have hzy : litLT x z = true := hdy.1 z hz
          rcases List.mem_cons.mp ((hiff z).mpr (List.mem_cons_of_mem _ hz)) with rfl | h
          · rw [litLT_irrefl] at hzy
            cases hzy
          · exact h
      rw [ih hcx.2 hdy.2 htail]

theorem make_clause_sorted (ls : List Literal) : ClauseSorted (make_clause ls) := by
  induction ls with
  | nil => simp [make_clause, ClauseSorted]
  | cons l rest ih => exact insLit_sorted ih

theorem mem_make_clause {x : Literal} : ∀ {ls : List Literal},
    x ∈ make_clause ls ↔ x ∈ ls := by
  intro ls
  induction ls with
  | nil => simp [make_clause]
  | cons l rest ih =>
    simp only [make_clause, List.foldr_cons, mem_insLit, List.mem_cons]
    rw [show List.foldr insLit [] rest = make_clause rest from rfl] at *
    simp [ih]

/-- Rebuilding a clause from a permuted listing of its literals yields
the same clause value (the same frozenset). -/
theorem make_clause_perm {ls ls' : List Literal} (h : ls.Perm ls') :
    make_clause ls = make_clause ls' := by
  refine sorted_eq_of_mem_iff (make_clause_sorted ls) (make_clause_sorted ls') ?_
  intro x
  rw [mem_make_clause, mem_make_clause]
  exact ⟨fun hm => h.mem_iff.mp hm, fun hm => h.mem_iff.mpr hm⟩

theorem bool_eq_of_iff {a b : Bool} (h : a = true ↔ b = true) : a = b := by
  cases a <;> cases b <;> simp_all

/-- Truth-table satisfaction only depends on the set of clauses. -/
theorem satisfiesG_perm {g : Nat → Bool} {f f' : CNF} (h : f.Perm f') :
    satisfiesG g f = satisfiesG g f' := by
  refine bool_eq_of_iff ?_
  rw [satisfiesG, satisfiesG, List.all_eq_true, List.all_eq_true]
  exact ⟨fun ha c hc => ha c (h.mem_iff.mpr hc), fun ha c hc => ha c (h.mem_iff.mp hc)⟩

/-- `is_satisfiable` is invariant under permutation of the clause list. -/
theorem is_satisfiable_perm {f f' : CNF} (h : f.Perm f') :
    is_satisfiable f = is_satisfiable f' := by
  refine bool_eq_of_iff ?_
  rw [isSat_iff_exists, isSat_iff_exists]
  constructor
  · rintro ⟨g, hg⟩
    exact ⟨g, (satisfiesG_perm h) ▸ hg⟩
  · rintro ⟨g, hg⟩
    exact ⟨g, (satisfiesG_perm h).symm ▸ hg⟩

theorem make_cnf_forall₂ : ∀ {mid cs' : List (List Literal)},
    List.Forall₂ List.Perm mid cs' → make_cnf mid = make_cnf cs' := by
  intro mid cs' h
  induction h with
  | nil => rfl
  | cons hpq hrest ih =>
    simp only [make_cnf, List.map_cons] at *
    rw [make_clause_perm hpq, ih]

/-- C4: permuting the clause sequence, and rebuilding each clause from a
permuted listing of its literals, never changes `is_satisfiable`'s
result. -/
theorem C4_reordering_invariance (cs mid cs' : List (List Literal))
    (houter : cs.Perm mid) (hinner : List.Forall₂ List.Perm mid cs') :
    is_satisfiable (make_cnf cs) = is_satisfiable (make_cnf cs') := by
  rw [← make_cnf_forall₂ hinner]
  exact is_satisfiable_perm (houter.map make_clause)

/-- Witness for C4 at a concrete formula, outer swap plus an inner
literal swap. -/
theorem C4_witness :
    ([[(⟨1, false⟩ : Literal), ⟨2, true⟩], [⟨3, false⟩]].Perm
      [[(⟨3, false⟩ : Literal)], [⟨1, false⟩, ⟨2, true⟩]]) ∧
    (List.Forall₂ List.Perm [[(⟨3, false⟩ : Literal)], [⟨1, false⟩, ⟨2, true⟩]]
      [[(⟨3, false⟩ : Literal)], [⟨2, true⟩, ⟨1, false⟩]]) ∧
    is_satisfiable (make_cnf [[(⟨1, false⟩ : Literal), ⟨2, true⟩], [⟨3, false⟩]]) =
      is_satisfiable (make_cnf [[(⟨3, false⟩ : Literal)], [⟨2, true⟩, ⟨1, false⟩]]) := by
  refine ⟨List.Perm.swap _ _ _, ?_, ?_⟩
  · exact List.Forall₂.cons (List.Perm.refl _)
      (List.Forall₂.cons (List.Perm.swap _ _ _) List.Forall₂.nil)
  · exact C4_reordering_invariance _ _ _ (List.Perm.swap _ _ _)
      (List.Forall₂.cons (List.Perm.refl _)
        (List.Forall₂.cons (List.Perm.swap _ _ _) List.Forall₂.nil))
